import Mathlib

/-!
# A verification model of the busybox `patch` applet (src/editors/patch_bbox.c)

This file gives a shallow embedding of the patch-application engine of the
busybox `patch` applet and proves properties of it.

Modelling conventions:

* A text line is modelled as `List Char`, *without* its terminating newline.
  A file is a list of such lines.  Modelled from the spec: the "Line Source"
  component (the line readers `xmalloc_fgets` / `xmalloc_fgetline` of libbb,
  whose code is not part of this repository) is a "sequential line reader over
  the patch stream and over each target/backup file; no seeking, forward-only";
  it is modelled as handing out the successive lines of such a list, so a blank
  line in a stream is handed out as the empty list of characters.
* C `unsigned` arithmetic is modelled on `Nat`; the one place where an
  unsigned subtraction can wrap (`src_beg_line - src_cur_line`) uses `usub`,
  which is exact 32-bit unsigned subtraction for operands below `2 ^ 32`.
* `sscanf` numeric fields (`%d`) are modelled as nonnegative decimal numbers.
* Fallible/aborting code paths (`bb_error_msg_and_die`, `xfunc_error_retval`)
  are modelled with explicit `fatal` result constructors; the fatal exit
  status is 2, as set once at the top of `patch_main`.
* The filesystem is an association list from paths to file contents, plus the
  list of directory paths handed to `bb_make_directory`.
-/

namespace BBPatch

/-- A text line, without its terminating newline. -/
abbrev Line := List Char

/-- Convert a string literal to a modelled line. -/
def str (s : String) : Line := s.data

/-- C 32-bit unsigned subtraction `a - b`; exact for `a, b < 2 ^ 32`. -/
def usub (a b : Nat) : Nat := if b ≤ a then a - b else a + 4294967296 - b

/-- Embedding of `copy_lines` (patch_bbox.c lines 24-39): copy up to
`lines_count` lines from the source stream to the destination, stopping if the
source stream is `NULL` or exhausted.  Returns the remaining source stream, the
destination lines written so far, and the remaining (uncopied) count, exactly
as the C function returns `lines_count`. -/
def copy_lines : Option (List Line) → List Line → Nat → Option (List Line) × List Line × Nat
  | none, dst, n => (none, dst, n)
  | some src, dst, 0 => (some src, dst, 0)
  | some [], dst, n => (some [], dst, n)
  | some (l :: ls), dst, n + 1 => copy_lines (some ls) (dst ++ [l]) n

/-- The suffix of a list after its first '/', if any (C `strchr(p, '/') + 1`). -/
def afterSlash : Line → Option Line
  | [] => none
  | c :: cs => if c = '/' then some cs else afterSlash cs

theorem afterSlash_length : ∀ (l l2 : Line), afterSlash l = some l2 → l2.length < l.length := by
  intro l
  induction l with
  | nil => intro l2 h; simp [afterSlash] at h
  | cons c cs ih =>
    intro l2 h
    simp only [afterSlash] at h
    by_cases hc : c = '/'
    · simp [hc] at h
      subst h
      simp [List.length_cons, Nat.lt_succ_self]
    · simp [hc] at h
      exact Nat.lt_trans (ih l2 h) (Nat.lt_succ_self _)

/-- Embedding of the directory-stripping loop of `extract_filename`
(patch_bbox.c lines 55-61): `while (patch_level--) ...`.  The loop body runs
while the tested value is nonzero, so a negative level keeps stripping until no
'/' is left. -/
def dropDirs (l : Line) (lvl : Int) : Line :=
  if lvl = 0 then l
  else
    match h : afterSlash l with
    | none => l
    | some l2 => dropDirs l2 (lvl - 1)
termination_by l.length
decreasing_by exact afterSlash_length _ _ h

theorem dropDirs_eq (l : Line) (lvl : Int) :
    dropDirs l lvl =
      if lvl = 0 then l
      else
        match afterSlash l with
        | none => l
        | some l2 => dropDirs l2 (lvl - 1) := by
  rw [dropDirs]
  split
  · rfl
  · cases ha : afterSlash l <;> rfl

/-- C `line[strcspn(line, "\t\n\r")] = '\0'`: truncate at the first tab,
newline or carriage return. -/
def cutAt (l : Line) : Line :=
  l.takeWhile (fun c => !(c == '\t' || c == '\n' || c == '\r'))

/-- Embedding of `extract_filename` (patch_bbox.c lines 47-66): if the line
starts with the 4-character marker `pat`, truncate at the first whitespace
control character, skip the marker, strip `patch_level` leading directories and
return the result; otherwise return `none` (C `NULL`). -/
def extract_filename (line : Line) (patch_level : Int) (pat : Line) : Option Line :=
  if line.take 4 = pat.take 4 then
    some (dropDirs ((cutAt line).drop 4) patch_level)
  else none

/-! ## Hunk header parsing (the two `sscanf` calls, patch_bbox.c lines 191-192) -/

/-- C `isspace` on the characters `sscanf` skips for a format space or before
a numeric field. -/
def isSpaceC (c : Char) : Bool :=
  c == ' ' || c == '\t' || c == '\n' || c == '\x0b' || c == '\x0c' || c == '\r'

/-- Skip a (possibly empty) run of whitespace, as a space in a `sscanf`
format does. -/
def skipWS (l : Line) : Line := l.dropWhile isSpaceC

/-- Decimal digit test. -/
def isDigitC (c : Char) : Bool := '0' ≤ c && c ≤ '9'

/-- Value of a list of decimal digit characters. -/
def digitsVal (ds : List Char) : Nat :=
  ds.foldl (fun a c => 10 * a + (c.toNat - 48)) 0

/-- One `%d` conversion, modelled as a nonnegative decimal number: skip
whitespace, then read at least one digit. -/
def scanNat (l : Line) : Option (Nat × Line) :=
  let l2 := skipWS l
  let ds := l2.takeWhile isDigitC
  if ds = [] then none else some (digitsVal ds, l2.drop ds.length)

/-- A literal character in a `sscanf` format: must match the next input
character exactly. -/
def lit (c : Char) : Line → Option Line
  | [] => none
  | x :: xs => if x = c then some xs else none

/-- The format `"@@ -%d,%d +%d,%d"` (patch_bbox.c line 191).  The call is
accepted when at least 3 conversions succeed; a missing fourth field leaves
`dst_last_line` at its per-hunk initial value 1. -/
def parseForm1 (l : Line) : Option (Nat × Nat × Nat × Nat) := do
  let l ← lit '@' l
  let l ← lit '@' l
  let l ← lit '-' (skipWS l)
  let (sb, l) ← scanNat l
  let l ← lit ',' l
  let (sl, l) ← scanNat l
  let l ← lit '+' (skipWS l)
  let (db, l) ← scanNat l
  match lit ',' l with
  | none => some (sb, sl, db, 1)
  | some l2 =>
    match scanNat l2 with
    | none => some (sb, sl, db, 1)
    | some (dl, _) => some (sb, sl, db, dl)

/-- The format `"@@ -%d +%d,%d"` (patch_bbox.c line 192).  The call is
accepted when at least 2 conversions succeed; a missing third field leaves
`dst_last_line` at its per-hunk initial value 1.  Returns
`(src_beg, dst_beg, dst_last)`. -/
def parseForm2 (l : Line) : Option (Nat × Nat × Nat) := do
  let l ← lit '@' l
  let l ← lit '@' l
  let l ← lit '-' (skipWS l)
  let (sb, l) ← scanNat l
  let l ← lit '+' (skipWS l)
  let (db, l) ← scanNat l
  match lit ',' l with
  | none => some (sb, db, 1)
  | some l2 =>
    match scanNat l2 with
    | none => some (sb, db, 1)
    | some (dl, _) => some (sb, db, dl)

/-- Hunk header recognition: try the full form, then the abbreviated form in
which `src_last_line` keeps its per-hunk initial value 1.  `none` means "no
more hunks for this file" (patch_bbox.c lines 191-196).  The result is
`(src_beg_line, src_last_line, dst_beg_line, dst_last_line)` before the
reverse swap. -/
def parse_hunk_header (l : Line) : Option (Nat × Nat × Nat × Nat) :=
  match parseForm1 l with
  | some r => some r
  | none =>
    match parseForm2 l with
    | some (sb, db, dl) => some (sb, 1, db, dl)
    | none => none

/-! ## The hunk edit loop (patch_bbox.c lines 222-268) -/

/-- The mutable state threaded through one hunk's edit loop: the source
stream (`none` models a `NULL` `src_stream`), the lines written to the
destination so far, and the two line cursors. -/
structure EditSt where
  src : Option (List Line)
  out : List Line
  srcCur : Nat
  dstCur : Nat
deriving Repr, DecidableEq

/-- Embedding of the edit loop of one hunk (patch_bbox.c lines 222-268).
Arguments: the active "add" marker `plus` (`'+'` normally, `'-'` under `-R`),
the `-N` flag, and the captured absolute bounds `srcLast`/`dstLast`.
The loop takes the remaining patch lines and the edit state, and returns
`(remaining patch lines, line in hand when the loop ended, state, failed)`;
`failed` is true when the hunk was recorded as FAILED (the caller increments
`bad_hunk_count` and emits the diagnostic).  A line in hand of `none` models
`patch_line == NULL` (end of the patch stream). -/
def edit_loop (plus : Char) (optN : Bool) (srcLast dstLast : Nat) :
    List Line → EditSt → List Line × Option Line × EditSt × Bool
  | [], st => ([], none, st, false)
  | l0 :: rest, st =>
    -- whitespace-damaged patch with "" lines (lines 227-231)
    let pl := if l0 = [] then [' '] else l0
    let c := pl.headD ' '
    if ¬(c = '-' ∨ c = '+' ∨ c = ' ') then
      -- end of hunk (lines 232-236)
      (rest, some pl, st, false)
    else if c ≠ plus then
      -- '-' or ' ' in forward mode, '+' or ' ' in reverse mode (lines 237-263)
      if st.srcCur = srcLast then (rest, some pl, st, false)
      else
        match st.src with
        | some (s :: ss) =>
          let st2 : EditSt := { st with src := some ss, srcCur := st.srcCur + 1 }
          if s = pl.tail then
            if c = ' ' then
              -- context line falls through to the write part (lines 264-267)
              if st2.dstCur = dstLast then (rest, some pl, st2, false)
              else
                edit_loop plus optN srcLast dstLast rest
                  { st2 with out := st2.out ++ [pl.tail], dstCur := st2.dstCur + 1 }
            else
              -- pure removal: write nothing (lines 260-262)
              edit_loop plus optN srcLast dstLast rest st2
          else if optN then
            -- mismatch under -N: treated as already applied (lines 251-254)
            edit_loop plus optN srcLast dstLast rest st2
          else
            -- hunk FAILED (lines 255-259)
            (rest, some pl, st2, true)
        | _ =>
          -- src_stream NULL, or source exhausted: src_line stays NULL and the
          -- source cursor does not move
          if optN then edit_loop plus optN srcLast dstLast rest st
          else (rest, some pl, st, true)
    else
      -- an "add" line (or a removal line under -R): write part only
      if st.dstCur = dstLast then (rest, some pl, st, false)
      else
        edit_loop plus optN srcLast dstLast rest
          { st with out := st.out ++ [pl.tail], dstCur := st.dstCur + 1 }

theorem edit_loop_nil (plus : Char) (optN : Bool) (sL dL : Nat) (st : EditSt) :
    edit_loop plus optN sL dL [] st = ([], none, st, false) := rfl

theorem edit_loop_len_le (plus : Char) (optN : Bool) (sL dL : Nat) :
    ∀ (p : List Line) (st : EditSt), ((edit_loop plus optN sL dL p st).1).length ≤ p.length := by
  intro p
  induction p with
  | nil => intro st; simp [edit_loop]
  | cons l0 rest ih =>
    intro st
    simp only [edit_loop]
    repeat' split
    all_goals simp only [List.length_cons]
    all_goals try omega
    all_goals exact Nat.le_trans (ih _) (Nat.le_succ _)

theorem edit_loop_cons_lt (plus : Char) (optN : Bool) (sL dL : Nat)
    (l0 : Line) (rest : List Line) (st : EditSt) :
    ((edit_loop plus optN sL dL (l0 :: rest) st).1).length < (l0 :: rest).length := by
  simp only [edit_loop]
  repeat' split
  all_goals simp only [List.length_cons]
  all_goals first
    | omega
    | exact Nat.lt_succ_of_le (edit_loop_len_le plus optN sL dL rest _)

/-! ## Diagnostics and the per-file hunk loop (patch_bbox.c lines 183-269) -/

/-- User-visible messages emitted during a run. -/
inductive Diag where
  | patching (name : Line)
  | hunkFailed (n : Nat) (offset : Nat)
  | hunksFailed (bad total : Nat)
  | badSrcFile
  | invalidPatch
deriving Repr, DecidableEq

/-- The per-file state of `patch_main` while handling one file section. -/
structure HSt where
  src : Option (List Line)
  out : List Line
  srcCur : Nat
  dstCur : Nat
  dstBeg : Nat
  bad : Nat
  hcount : Nat
  flag : Bool
  diags : List Diag
deriving Repr, DecidableEq

/-- Result of processing one hunk-header candidate line. -/
inductive StepRes where
  | stop (st : HSt) (cur : Option Line) (rest : List Line)
  | fatalStep (st : HSt)
  | next (st : HSt) (cur : Option Line) (rest : List Line)
deriving Repr, DecidableEq

/-- The tail of one hunk iteration: capture the absolute bounds
(patch_bbox.c lines 219-220) and run the edit loop, then record a FAILED hunk
if the edit loop reported one (lines 255-258). -/
def hunk_edit (plus : Char) (optN : Bool) (sl dl : Nat) (rest : List Line) (st : HSt) : StepRes :=
  let hunkOff := st.srcCur
  let r := edit_loop plus optN (sl + st.srcCur) (dl + st.dstCur) rest
      { src := st.src, out := st.out, srcCur := st.srcCur, dstCur := st.dstCur }
  let est := r.2.2.1
  let st2 := { st with src := est.src, out := est.out, srcCur := est.srcCur, dstCur := est.dstCur }
  let st3 := if r.2.2.2 then
      { st2 with bad := st2.bad + 1, diags := st2.diags ++ [.hunkFailed st2.hcount hunkOff] }
    else st2
  .next st3 r.2.1 r.1

/-- Hunk header parsing followed by the reverse swap (patch_bbox.c lines
191-205): when `plus` is not `'+'` (reverse mode), `(src_beg, src_last)` and
`(dst_beg, dst_last)` are exchanged. -/
def parse_swapped (plus : Char) (l : Line) : Option (Nat × Nat × Nat × Nat) :=
  match parse_hunk_header l with
  | none => none
  | some (sb, sl, db, dl) =>
    some (if plus = '+' then (sb, sl, db, dl) else (db, dl, sb, sl))

/-- One iteration of the per-file hunk loop (patch_bbox.c lines 184-268):
parse the header candidate `cur` (stop if it is not a header), apply the
reverse swap, count the hunk, copy unmodified leading lines (lines 208-218,
dying on a bad source file), and run the edit loop. -/
def hunk_step (plus : Char) (optN : Bool) (cur : Line) (rest : List Line) (st : HSt) : StepRes :=
  match parse_swapped plus cur with
  | none => .stop st (some cur) rest
  | some (sb, sl, db, dl) =>
    let st := { st with hcount := st.hcount + 1, dstBeg := db }
    if sb ≠ 0 ∧ db ≠ 0 then
      -- copy unmodified lines up to the start of the hunk (lines 208-218)
      let count := usub sb st.srcCur
      let cp := copy_lines st.src [] count
      if cp.2.2 = 0 then
        hunk_edit plus optN sl dl rest
          { st with src := cp.1, out := st.out ++ cp.2.1,
                    srcCur := st.srcCur + count, dstCur := st.dstCur + count,
                    flag := true }
      else
        .fatalStep { st with src := cp.1, out := st.out ++ cp.2.1,
                             diags := st.diags ++ [.badSrcFile] }
    else hunk_edit plus optN sl dl rest st

theorem hunk_edit_next (plus : Char) (optN : Bool) (sl dl : Nat) (rest : List Line) (st : HSt)
    (st2 : HSt) (c : Option Line) (r : List Line)
    (h : hunk_edit plus optN sl dl rest st = .next st2 c r) :
    r.length ≤ rest.length ∧ (rest = [] → r = [] ∧ c = none) ∧
      (rest ≠ [] → r.length < rest.length) := by
  have hle := edit_loop_len_le plus optN (sl + st.srcCur) (dl + st.dstCur) rest
    { src := st.src, out := st.out, srcCur := st.srcCur, dstCur := st.dstCur }
  simp only [hunk_edit] at h
  split at h <;> cases h
  all_goals refine ⟨hle, ?_, ?_⟩
  all_goals cases rest with
  | nil => simp [edit_loop_nil]
  | cons l0 tl =>
    first
      | (intro _; exact edit_loop_cons_lt plus optN _ _ l0 tl _)
      | simp

theorem hunk_step_next (plus : Char) (optN : Bool) (cur : Line) (rest : List Line) (st : HSt)
    (st2 : HSt) (c : Option Line) (r : List Line)
    (h : hunk_step plus optN cur rest st = .next st2 c r) :
    r.length ≤ rest.length ∧ (rest = [] → r = [] ∧ c = none) ∧
      (rest ≠ [] → r.length < rest.length) := by
  simp only [hunk_step] at h
  split at h
  · cases h
  · split at h
    · split at h
      · exact hunk_edit_next _ _ _ _ _ _ _ _ _ h
      · cases h
    · exact hunk_edit_next _ _ _ _ _ _ _ _ _ h

/-- Outcome of the per-file hunk loop. -/
inductive HOut where
  | done (st : HSt) (cur : Option Line) (rest : List Line)
  | fatal (st : HSt)
deriving Repr, DecidableEq

/-- Termination measure helper: 1 if a line is in hand, else 0. -/
def muOpt : Option Line → Nat
  | some _ => 1
  | none => 0

/-- The per-file hunk loop (patch_bbox.c lines 184-269): handle hunks until no
further header is recognized or the patch stream ends. -/
def hunk_loop (plus : Char) (optN : Bool) : Option Line → List Line → HSt → HOut
  | none, rest, st => .done st none rest
  | some c, rest, st =>
    match h : hunk_step plus optN c rest st with
    | .stop st2 c2 r2 => .done st2 c2 r2
    | .fatalStep st2 => .fatal st2
    | .next st2 c2 r2 => hunk_loop plus optN c2 r2 st2
termination_by cur rest st => rest.length + muOpt cur
decreasing_by
  have hh := hunk_step_next _ _ _ _ _ _ _ _ h
  cases rest with
  | nil =>
    obtain ⟨h1, h2⟩ := hh.2.1 rfl
    subst h1; subst h2
    simp [muOpt]
  | cons a tl =>
    have h3 := hh.2.2 (by simp)
    cases c2 <;> simp only [muOpt] <;> omega

/-! ## Filesystem model and the top-level run (patch_bbox.c lines 68-306) -/

/-- Lookup of a path in the files map (C `stat` / `xfopen_for_read`). -/
def alookup : List (Line × List Line) → Line → Option (List Line)
  | [], _ => none
  | (k, v) :: rest, p => if k = p then some v else alookup rest p

/-- Remove a path from the files map (C `unlink` / `xunlink`). -/
def aremove (files : List (Line × List Line)) (p : Line) : List (Line × List Line) :=
  files.filter (fun kv => decide (kv.1 ≠ p))

/-- Write a path in the files map (C `xfopen_for_write` plus the writes). -/
def aset (files : List (Line × List Line)) (p : Line) (c : List Line) :
    List (Line × List Line) :=
  (p, c) :: aremove files p

/-- The filesystem: regular files (path to list of lines) and the directory
paths that have been handed to `bb_make_directory`. -/
structure FS where
  files : List (Line × List Line)
  dirs : List Line
deriving Repr, DecidableEq

/-- The directory part of a path (C `strrchr(name, '/')`, lines 157-163):
everything before the last '/', if the path has one. -/
def dirOf (p : Line) : Option Line :=
  match afterSlash p.reverse with
  | none => none
  | some r => some r.reverse

/-- Options of a run (patch_bbox.c lines 78-121): reverse (`-R`), forward
(`-N`), dry-run (`--dry-run`), and the strip level `-p` (`xatoi`, can be
negative). -/
structure Opts where
  reverse : Bool
  optN : Bool
  dryRun : Bool
  level : Int
deriving Repr, DecidableEq

/-- C line 76 and 118-119: `plus` is '+' unless `-R` was given. -/
def Opts.plus (o : Opts) : Char := if o.reverse then '-' else '+'

/-- Result of a whole run: normal completion carries the final filesystem and
the value of `ret`; a fatal abort (`bb_error_msg_and_die` with
`xfunc_error_retval = 2`) carries the filesystem at the moment of death. -/
inductive RunRes where
  | ok (fs : FS) (ret : Nat) (diags : List Diag)
  | fatal (fs : FS) (diags : List Diag)
deriving Repr, DecidableEq

/-- The process exit status of a run result (patch_bbox.c lines 87, 300-305). -/
def exitCode : RunRes → Nat
  | .ok _ ret _ => ret
  | .fatal _ _ => 2

/-- The scan for the next "--- " marker (patch_bbox.c lines 141-148): feed
the line in hand to `extract_filename`, then advance; end of stream during the
scan quits the run normally, even if the line in hand matched.  On success,
returns the line after the marker (the "+++ " candidate) and the rest. -/
def scan (lvl : Int) : Line → List Line → Option (Line × List Line)
  | cur, rest =>
    match rest with
    | [] => none
    | r1 :: rs =>
      if (extract_filename cur lvl (str "--- ")).isSome then some (r1, rs)
      else scan lvl r1 rs

/-- Result of processing one file section. -/
inductive SecRes where
  | ok (fs : FS) (bad : Nat) (diags : List Diag) (cur : Option Line) (rest : List Line)
  | fatal (fs : FS) (diags : List Diag)
deriving Repr, DecidableEq

/-- The cleanup of one file section (patch_bbox.c lines 271-295): the
destination receives everything written (`outAll`); with failed hunks nothing
else happens; with none, the backup is unlinked and an "empty" result file
(`dst_cur_line == 0 || dst_beg_line == 0`) is removed when not a dry run. -/
def finalize (o : Opts) (fs : FS) (name : Line) (backup : Option Line)
    (st : HSt) (outAll : List Line) : FS :=
  let fs1 : FS := if o.dryRun then fs else { fs with files := aset fs.files name outAll }
  if st.bad ≠ 0 then fs1
  else
    let fs2 := match backup with
      | some b => { fs1 with files := aremove fs1.files b }
      | none => fs1
    if ¬o.dryRun ∧ (st.dstCur = 0 ∨ st.dstBeg = 0) then
      { fs2 with files := aremove fs2.files name }
    else fs2

/-- The hunk phase of one file section plus its cleanup: run the hunk loop
from the per-file initial state (patch_bbox.c lines 131-136), flush trailing
lines if any hunk copied leading context (lines 272-274), emit the summary
message for failed hunks (line 281) and finalize the filesystem. -/
def sec_core (o : Opts) (fs : FS) (name : Line) (srcContent : Option (List Line))
    (backup : Option Line) (cur0 : Option Line) (rest0 : List Line)
    (diags : List Diag) : SecRes :=
  let st0 : HSt := { src := srcContent, out := [], srcCur := 1, dstCur := 0,
                     dstBeg := 1, bad := 0, hcount := 0, flag := false, diags := diags }
  match hunk_loop o.plus o.optN cur0 rest0 st0 with
  | .fatal st =>
    .fatal (if o.dryRun then fs else { fs with files := aset fs.files name st.out }) st.diags
  | .done st cur2 rest2 =>
    let outAll := if st.flag then st.out ++ (copy_lines st.src [] 4294967295).2.1 else st.out
    let diags2 := if st.bad ≠ 0 then st.diags ++ [.hunksFailed st.bad st.hcount] else st.diags
    .ok (finalize o fs name backup st outAll) st.bad diags2 cur2 rest2

/-- Target resolution for one file section (patch_bbox.c lines 155-180): a
missing target gets its leading directories created (in every mode) and an
empty source; an existing target is renamed to `<target>.orig` and read from
the backup, except in a dry run, where it is read in place and nothing is
renamed.  Then the "patching file" notice is emitted and the hunks are
processed. -/
def process_section (o : Opts) (fs : FS) (name : Line) (cur0 : Option Line)
    (rest0 : List Line) (diags0 : List Diag) : SecRes :=
  match alookup fs.files name with
  | none =>
    let fs1 := match dirOf name with
      | some d => { fs with dirs := fs.dirs ++ [d] }
      | none => fs
    sec_core o fs1 name none none cur0 rest0 (diags0 ++ [.patching name])
  | some content =>
    if o.dryRun then
      sec_core o fs name (some content) none cur0 rest0 (diags0 ++ [.patching name])
    else
      let b := name ++ str ".orig"
      let fs1 := { fs with files := aset (aremove fs.files name) b content }
      sec_core o fs1 name (some content) (some b) cur0 rest0 (diags0 ++ [.patching name])

theorem scan_length (lvl : Int) :
    ∀ (rest : List Line) (cur pl : Line) (rs : List Line),
      scan lvl cur rest = some (pl, rs) → rs.length < rest.length := by
  intro rest
  induction rest with
  | nil => intro cur pl rs h; simp [scan] at h
  | cons r1 tl ih =>
    intro cur pl rs h
    simp only [scan] at h
    split at h
    · cases h; simp
    · exact Nat.lt_trans (ih r1 pl rs h) (Nat.lt_succ_self _)

theorem hunk_loop_none (plus : Char) (optN : Bool) (rest : List Line) (st : HSt) :
    hunk_loop plus optN none rest st = .done st none rest := by
  rw [hunk_loop]

theorem hunk_loop_some (plus : Char) (optN : Bool) (c : Line) (rest : List Line) (st : HSt) :
    hunk_loop plus optN (some c) rest st =
      (match hunk_step plus optN c rest st with
       | .stop st2 c2 r2 => .done st2 c2 r2
       | .fatalStep st2 => .fatal st2
       | .next st2 c2 r2 => hunk_loop plus optN c2 r2 st2) := by
  rw [hunk_loop]
  cases hstep : hunk_step plus optN c rest st <;> rfl

theorem hunk_step_stop (plus : Char) (optN : Bool) (cur : Line) (rest : List Line) (st : HSt)
    (st2 : HSt) (c : Option Line) (r : List Line)
    (h : hunk_step plus optN cur rest st = .stop st2 c r) :
    st2 = st ∧ c = some cur ∧ r = rest := by
  simp only [hunk_step] at h
  split at h
  · cases h; exact ⟨rfl, rfl, rfl⟩
  · split at h
    · split at h
      · simp only [hunk_edit] at h; split at h <;> cases h
      · cases h
    · simp only [hunk_edit] at h; split at h <;> cases h

theorem hunk_loop_mu_le_aux (plus : Char) (optN : Bool) :
    ∀ (n : Nat) (cur : Option Line) (rest : List Line) (st : HSt) (st2 : HSt)
      (c2 : Option Line) (r2 : List Line),
      rest.length + muOpt cur ≤ n →
      hunk_loop plus optN cur rest st = .done st2 c2 r2 →
      r2.length + muOpt c2 ≤ rest.length + muOpt cur := by
  intro n
  induction n with
  | zero =>
    intro cur rest st st2 c2 r2 hle h
    cases cur with
    | none => rw [hunk_loop_none] at h; cases h; exact Nat.le_refl _
    | some c => simp [muOpt] at hle
  | succ m ih =>
    intro cur rest st st2 c2 r2 hle h
    cases cur with
    | none => rw [hunk_loop_none] at h; cases h; exact Nat.le_refl _
    | some c =>
      rw [hunk_loop_some] at h
      cases hstep : hunk_step plus optN c rest st with
      | stop st3 c3 r3 =>
        rw [hstep] at h
        cases h
        obtain ⟨_, hc, hr⟩ := hunk_step_stop _ _ _ _ _ _ _ _ hstep
        subst hc; subst hr
        exact Nat.le_refl _
      | fatalStep st3 =>
        rw [hstep] at h
        cases h
      | next st3 c3 r3 =>
        rw [hstep] at h
        have h4 : hunk_loop plus optN c3 r3 st3 = .done st2 c2 r2 := h
        have hh := hunk_step_next _ _ _ _ _ _ _ _ hstep
        have hle2 : rest.length + 1 ≤ m + 1 := by simpa [muOpt] using hle
        have hbound : r3.length + muOpt c3 ≤ rest.length + 1 := by
          cases rest with
          | nil =>
            obtain ⟨h1, h2⟩ := hh.2.1 rfl
            subst h1; subst h2
            simp [muOpt]
          | cons a tl =>
            have h3 := hh.2.2 (by simp)
            simp only [List.length_cons] at h3 ⊢
            cases c3 <;> simp only [muOpt] <;> omega
        have hmu : r3.length + muOpt c3 ≤ m := by
          cases rest with
          | nil =>
            obtain ⟨h1, h2⟩ := hh.2.1 rfl
            subst h1; subst h2
            simp [muOpt]
          | cons a tl =>
            have h3 := hh.2.2 (by simp)
            simp only [List.length_cons] at h3 hle2 ⊢
            cases c3 <;> simp only [muOpt] <;> omega
        have hfin := ih c3 r3 st3 st2 c2 r2 hmu h4
        exact Nat.le_trans hfin (by simpa [muOpt] using hbound)

theorem hunk_loop_mu_le (plus : Char) (optN : Bool)
    (cur : Option Line) (rest : List Line) (st : HSt) (st2 : HSt)
    (c2 : Option Line) (r2 : List Line)
    (h : hunk_loop plus optN cur rest st = .done st2 c2 r2) :
    r2.length + muOpt c2 ≤ rest.length + muOpt cur :=
  hunk_loop_mu_le_aux plus optN (rest.length + muOpt cur) cur rest st st2 c2 r2
    (Nat.le_refl _) h

theorem sec_core_mu (o : Opts) (fs : FS) (name : Line) (srcContent : Option (List Line))
    (backup : Option Line) (cur0 : Option Line) (rest0 : List Line) (diags : List Diag)
    (fs2 : FS) (bad : Nat) (d2 : List Diag) (cur3 : Option Line) (rest3 : List Line)
    (h : sec_core o fs name srcContent backup cur0 rest0 diags = .ok fs2 bad d2 cur3 rest3) :
    rest3.length + muOpt cur3 ≤ rest0.length + muOpt cur0 := by
  simp only [sec_core] at h
  split at h
  · cases h
  next st cur2 rest2 heq =>
    cases h
    exact hunk_loop_mu_le _ _ _ _ _ _ _ _ heq

theorem process_section_mu (o : Opts) (fs : FS) (name : Line) (cur0 : Option Line)
    (rest0 : List Line) (diags0 : List Diag)
    (fs2 : FS) (bad : Nat) (d2 : List Diag) (cur3 : Option Line) (rest3 : List Line)
    (h : process_section o fs name cur0 rest0 diags0 = .ok fs2 bad d2 cur3 rest3) :
    rest3.length + muOpt cur3 ≤ rest0.length + muOpt cur0 := by
  simp only [process_section] at h
  split at h
  · exact sec_core_mu _ _ _ _ _ _ _ _ _ _ _ _ _ h
  · split at h
    · exact sec_core_mu _ _ _ _ _ _ _ _ _ _ _ _ _ h
    · exact sec_core_mu _ _ _ _ _ _ _ _ _ _ _ _ _ h

/-- One iteration of the top-level loop over file sections (patch_bbox.c
lines 124-299): find the next "--- " marker, require a "+++ " marker on the
following line (else die with "invalid patch"), resolve the target and process
its hunks, and accumulate `ret`.  `inl` ends the run; `inr` carries the state
for the next iteration. -/
def run_step (o : Opts) (c : Line) (rest : List Line) (fs : FS) (ret : Nat)
    (diags : List Diag) : RunRes ⊕ (Option Line × List Line × FS × Nat × List Diag) :=
  match scan o.level c rest with
  | none => .inl (.ok fs ret diags)
  | some (plusLine, rs) =>
    match extract_filename plusLine o.level (str "+++ ") with
    | none => .inl (.fatal fs (diags ++ [.invalidPatch]))
    | some name =>
      match rs with
      | [] =>
        match process_section o fs name none [] diags with
        | .fatal fs2 d2 => .inl (.fatal fs2 d2)
        | .ok fs2 bad d2 cur3 rest3 =>
          .inr (cur3, rest3, fs2, if bad ≠ 0 then 1 else ret, d2)
      | c2 :: cs =>
        match process_section o fs name (some c2) cs diags with
        | .fatal fs2 d2 => .inl (.fatal fs2 d2)
        | .ok fs2 bad d2 cur3 rest3 =>
          .inr (cur3, rest3, fs2, if bad ≠ 0 then 1 else ret, d2)

theorem run_step_inr (o : Opts) (c : Line) (rest : List Line) (fs : FS) (ret : Nat)
    (diags : List Diag) (cur3 : Option Line) (rest3 : List Line) (fs2 : FS) (ret2 : Nat)
    (d2 : List Diag)
    (h : run_step o c rest fs ret diags = .inr (cur3, rest3, fs2, ret2, d2)) :
    rest3.length + muOpt cur3 < rest.length + 1 := by
  simp only [run_step] at h
  split at h
  · cases h
  next plusLine rs hscan =>
    have h2 := scan_length _ _ _ _ _ hscan
    split at h
    · cases h
    · split at h
      · split at h
        · cases h
        next fs4 bad d4 cur4 rest4 hsec =>
          cases h
          have h1 := process_section_mu _ _ _ _ _ _ _ _ _ _ _ hsec
          simp only [muOpt, List.length_nil] at h1 ⊢
          cases cur3 <;> simp only [] at h1 ⊢ <;> omega
      · split at h
        · cases h
        next c2 cs fs4 bad d4 cur4 rest4 hsec =>
          cases h
          have h1 := process_section_mu _ _ _ _ _ _ _ _ _ _ _ hsec
          simp only [muOpt, List.length_cons] at h1 h2 ⊢
          cases cur3 <;> simp only [] at h1 ⊢ <;> omega

/-- The top-level loop over file sections (patch_bbox.c lines 124-299). -/
def run_loop (o : Opts) : Option Line → List Line → FS → Nat → List Diag → RunRes
  | none, _, fs, ret, diags => .ok fs ret diags
  | some c, rest, fs, ret, diags =>
    match h : run_step o c rest fs ret diags with
    | .inl r => r
    | .inr (cur3, rest3, fs2, ret2, d2) => run_loop o cur3 rest3 fs2 ret2 d2
termination_by cur rest _ _ _ => rest.length + muOpt cur
decreasing_by
  have h1 := run_step_inr _ _ _ _ _ _ _ _ _ _ _ h
  cases cur3 <;> simp only [muOpt] at h1 ⊢ <;> omega

theorem run_loop_none (o : Opts) (rest : List Line) (fs : FS) (ret : Nat)
    (diags : List Diag) : run_loop o none rest fs ret diags = .ok fs ret diags := by
  simp only [run_loop]

theorem run_loop_some (o : Opts) (c : Line) (rest : List Line) (fs : FS) (ret : Nat)
    (diags : List Diag) :
    run_loop o (some c) rest fs ret diags =
      (match run_step o c rest fs ret diags with
       | .inl r => r
       | .inr (cur3, rest3, fs2, ret2, d2) => run_loop o cur3 rest3 fs2 ret2 d2) := by
  simp only [run_loop]
  cases hstep : run_step o c rest fs ret diags with
  | inl r => rfl
  | inr t =>
    obtain ⟨cur3, rest3, fs2, ret2, d2⟩ := t
    rfl

/-- The whole applet run (patch_bbox.c `patch_main`): read the first patch
line and run the file-section loop with `ret = 0`. -/
def patch_run (o : Opts) (fs : FS) (patch : List Line) : RunRes :=
  match patch with
  | [] => .ok fs 0 []
  | c :: rest => run_loop o (some c) rest fs 0 []

/-! ## Path segments, for stating the strip-level property -/

/-- Join path segments with '/' separators. -/
def joinSegs : List Line → Line
  | [] => []
  | [s] => s
  | s :: s2 :: rest => s ++ '/' :: joinSegs (s2 :: rest)

theorem afterSlash_no_slash (s : Line) (h : ('/' : Char) ∉ s) : afterSlash s = none := by
  induction s with
  | nil => rfl
  | cons c cs ih =>
    simp only [afterSlash]
    rw [if_neg (by simp at h; exact fun hc => h.1 hc.symm)]
    exact ih (by simp at h; exact h.2)

theorem afterSlash_append (s t : Line) (h : ('/' : Char) ∉ s) :
    afterSlash (s ++ '/' :: t) = some t := by
  induction s with
  | nil => simp [afterSlash]
  | cons c cs ih =>
    simp only [List.cons_append, afterSlash]
    rw [if_neg (by simp at h; exact fun hc => h.1 hc.symm)]
    exact ih (by simp at h; exact h.2)

theorem dropDirs_zero (l : Line) : dropDirs l 0 = l := by
  rw [dropDirs_eq]; simp

theorem dropDirs_neg :
    ∀ (segs : List Line), segs ≠ [] → (∀ s ∈ segs, ('/' : Char) ∉ s) →
      ∀ lvl : Int, lvl < 0 →
      dropDirs (joinSegs segs) lvl = joinSegs (segs.drop (segs.length - 1)) := by
  intro segs
  induction segs with
  | nil => intro h; exact absurd rfl h
  | cons s rest ih =>
    intro _ hfree lvl hneg
    cases rest with
    | nil =>
      show dropDirs s lvl = _
      rw [dropDirs_eq, if_neg (by omega), afterSlash_no_slash s (hfree s (by simp))]
      simp [joinSegs]
    | cons s2 rest2 =>
      show dropDirs (s ++ '/' :: joinSegs (s2 :: rest2)) lvl = _
      rw [dropDirs_eq, if_neg (by omega), afterSlash_append s _ (hfree s (by simp))]
      show dropDirs (joinSegs (s2 :: rest2)) (lvl - 1) = _
      rw [ih (by simp) (fun x hx => hfree x (by simp [hx])) (lvl - 1) (by omega)]
      have h1 : List.drop ((s :: s2 :: rest2).length - 1) (s :: s2 :: rest2)
          = List.drop ((s2 :: rest2).length - 1) (s2 :: rest2) := by
        simp only [List.length_cons]
        rw [show rest2.length + 1 + 1 - 1 = (rest2.length + 1 - 1) + 1 by omega,
            List.drop_succ_cons]
      rw [h1]

theorem dropDirs_pos :
    ∀ (segs : List Line), segs ≠ [] → (∀ s ∈ segs, ('/' : Char) ∉ s) →
      ∀ lvl : Int, 0 < lvl →
      dropDirs (joinSegs segs) lvl =
        joinSegs (segs.drop (min lvl.toNat (segs.length - 1))) := by
  intro segs
  induction segs with
  | nil => intro h; exact absurd rfl h
  | cons s rest ih =>
    intro _ hfree lvl hpos
    cases rest with
    | nil =>
      show dropDirs s lvl = _
      rw [dropDirs_eq, if_neg (by omega), afterSlash_no_slash s (hfree s (by simp))]
      simp [joinSegs]
    | cons s2 rest2 =>
      show dropDirs (s ++ '/' :: joinSegs (s2 :: rest2)) lvl = _
      rw [dropDirs_eq, if_neg (by omega), afterSlash_append s _ (hfree s (by simp))]
      show dropDirs (joinSegs (s2 :: rest2)) (lvl - 1) = _
      have hmin : min lvl.toNat ((s :: s2 :: rest2).length - 1) =
          min (lvl - 1).toNat ((s2 :: rest2).length - 1) + 1 := by
        simp only [List.length_cons]
        omega
      rw [hmin, List.drop_succ_cons]
      by_cases h1 : lvl = 1
      · subst h1
        rw [show ((1 : Int) - 1) = 0 from rfl, dropDirs_zero]
        simp
      · exact ih (by simp) (fun x hx => hfree x (by simp [hx])) (lvl - 1) (by omega)

/-! ## Concrete run instances used by several claims -/

/-- Forward, non-dry options at strip level 1 (the default). -/
def optsFwd : Opts := ⟨false, false, false, 1⟩

/-- Reverse (`-R`), non-dry options at strip level 1. -/
def optsRev : Opts := ⟨true, false, false, 1⟩

/-- Dry-run options at strip level 1. -/
def optsDry : Opts := ⟨false, false, true, 1⟩

/-- The regular files of a run outcome (also at the moment of a fatal abort). -/
def filesOf : RunRes → List (Line × List Line)
  | .ok fs _ _ => fs.files
  | .fatal fs _ => fs.files

/-- The patch section of spec Scenario A. -/
def patchA : List Line :=
  [str "--- a/f", str "+++ b/f", str "@@ -1,2 +1,2 @@", str "-foo", str "+bar", str " baz"]

/-- A one-file filesystem with `f` containing the two lines of Scenario A. -/
def fsA : FS := ⟨[(str "f", [str "foo", str "baz"])], []⟩

/-- The mismatching file of spec Scenario B. -/
def fsB : FS := ⟨[(str "f", [str "qux", str "baz"])], []⟩

/-- A patch section targeting `d/f` (strip level 1), used to exhibit
directory creation. -/
def patchDir : List Line :=
  [str "--- a/d/f", str "+++ b/d/f", str "@@ -1,1 +1,1 @@", str "-x", str "+y"]

/-- A four-line file whose first line mismatches the first hunk of
`patchC1`. -/
def fsC1 : FS := ⟨[(str "f", [str "qux", str "mid", str "aaa", str "tail"])], []⟩

/-- A single file section with two hunks; the first hunk mismatches `fsC1`,
the second would apply to it cleanly. -/
def patchC1 : List Line :=
  [str "--- a/f", str "+++ b/f", str "@@ -1,1 +1,1 @@", str "-foo", str "+bar",
   str "@@ -3,1 +3,1 @@", str "-aaa", str "+bbb"]

/-- Two files for the two-section continuation run. -/
def fsTwo : FS := ⟨[(str "f", [str "qux"]), (str "g", [str "old"])], []⟩

/-- Two file sections; the single hunk of the first section mismatches `f`,
the second section applies cleanly to `g`. -/
def patchTwo : List Line :=
  [str "--- a/f", str "+++ b/f", str "@@ -1,1 +1,1 @@", str "-foo", str "+bar",
   str "--- a/g", str "+++ b/g", str "@@ -1,1 +1,1 @@", str "-old", str "+new"]

/-! ## Dry-run frame lemmas -/

theorem finalize_dry (o : Opts) (fs : FS) (name : Line) (st : HSt) (outAll : List Line)
    (hdry : o.dryRun = true) :
    (finalize o fs name none st outAll).files = fs.files := by
  simp only [finalize, hdry]
  split <;> simp

theorem sec_core_dry (o : Opts) (fs : FS) (name : Line) (srcC : Option (List Line))
    (cur0 : Option Line) (rest0 : List Line) (diags : List Diag)
    (hdry : o.dryRun = true) :
    (∀ fs2 bad d2 c2 r2,
        sec_core o fs name srcC none cur0 rest0 diags = .ok fs2 bad d2 c2 r2 →
        fs2.files = fs.files) ∧
    (∀ fs2 d2, sec_core o fs name srcC none cur0 rest0 diags = .fatal fs2 d2 →
        fs2.files = fs.files) := by
  constructor
  · intro fs2 bad d2 c2 r2 h
    simp only [sec_core] at h
    split at h
    · cases h
    · cases h
      exact finalize_dry o fs name _ _ hdry
  · intro fs2 d2 h
    simp only [sec_core, hdry] at h
    split at h
    · cases h
      simp
    · cases h

theorem process_section_dry (o : Opts) (fs : FS) (name : Line) (cur0 : Option Line)
    (rest0 : List Line) (diags0 : List Diag) (hdry : o.dryRun = true) :
    (∀ fs2 bad d2 c2 r2,
        process_section o fs name cur0 rest0 diags0 = .ok fs2 bad d2 c2 r2 →
        fs2.files = fs.files) ∧
    (∀ fs2 d2, process_section o fs name cur0 rest0 diags0 = .fatal fs2 d2 →
        fs2.files = fs.files) := by
  simp only [process_section]
  split
  next heq =>
    cases hdir : dirOf name with
    | none =>
      exact ⟨fun fs2 bad d2 c2 r2 h =>
          (sec_core_dry o fs name none cur0 rest0 _ hdry).1 _ _ _ _ _ h,
        fun fs2 d2 h => (sec_core_dry o fs name none cur0 rest0 _ hdry).2 _ _ h⟩
    | some d =>
      exact ⟨fun fs2 bad d2 c2 r2 h =>
          (sec_core_dry o ⟨fs.files, fs.dirs ++ [d]⟩ name none cur0 rest0 _ hdry).1
            _ _ _ _ _ h,
        fun fs2 d2 h =>
          (sec_core_dry o ⟨fs.files, fs.dirs ++ [d]⟩ name none cur0 rest0 _ hdry).2 _ _ h⟩
  next content heq =>
    rw [if_pos hdry]
    exact ⟨fun fs2 bad d2 c2 r2 h =>
        (sec_core_dry o fs name (some content) cur0 rest0 _ hdry).1 _ _ _ _ _ h,
      fun fs2 d2 h =>
        (sec_core_dry o fs name (some content) cur0 rest0 _ hdry).2 _ _ h⟩

theorem run_step_dry (o : Opts) (c : Line) (rest : List Line) (fs : FS) (ret : Nat)
    (diags : List Diag) (hdry : o.dryRun = true) :
    (∀ r, run_step o c rest fs ret diags = .inl r → filesOf r = fs.files) ∧
    (∀ c3 r3 fs2 ret2 d2, run_step o c rest fs ret diags = .inr (c3, r3, fs2, ret2, d2) →
        fs2.files = fs.files) := by
  simp only [run_step]
  constructor
  · intro r h
    split at h
    · cases h; rfl
    · split at h
      · cases h; rfl
      · split at h
        · split at h
          · cases h
            exact (process_section_dry o fs _ none [] diags hdry).2 _ _ (by assumption)
          · cases h
        · split at h
          · cases h
            exact (process_section_dry o fs _ _ _ diags hdry).2 _ _ (by assumption)
          · cases h
  · intro c3 r3 fs2 ret2 d2 h
    split at h
    · cases h
    · split at h
      · cases h
      · split at h
        · split at h
          · cases h
          · cases h
            exact (process_section_dry o fs _ none [] diags hdry).1 _ _ _ _ _ (by assumption)
        · split at h
          · cases h
          · cases h
            exact (process_section_dry o fs _ _ _ diags hdry).1 _ _ _ _ _ (by assumption)

theorem run_loop_dry_aux (o : Opts) (hdry : o.dryRun = true) :
    ∀ (n : Nat) (cur : Option Line) (rest : List Line) (fs : FS) (ret : Nat)
      (diags : List Diag), rest.length + muOpt cur ≤ n →
      filesOf (run_loop o cur rest fs ret diags) = fs.files := by
  intro n
  induction n with
  | zero =>
    intro cur rest fs ret diags hle
    cases cur with
    | none => rw [run_loop_none]; rfl
    | some c => simp [muOpt] at hle
  | succ m ih =>
    intro cur rest fs ret diags hle
    cases cur with
    | none => rw [run_loop_none]; rfl
    | some c =>
      rw [run_loop_some]
      cases hstep : run_step o c rest fs ret diags with
      | inl r => exact (run_step_dry o c rest fs ret diags hdry).1 r hstep
      | inr t =>
        obtain ⟨c3, r3, fs2, ret2, d2⟩ := t
        have hfs := (run_step_dry o c rest fs ret diags hdry).2 c3 r3 fs2 ret2 d2 hstep
        have hmu := run_step_inr o c rest fs ret diags c3 r3 fs2 ret2 d2 hstep
        have hle2 : r3.length + muOpt c3 ≤ m := by
          simp only [muOpt] at hle hmu ⊢
          omega
        show filesOf (run_loop o c3 r3 fs2 ret2 d2) = fs.files
        rw [ih c3 r3 fs2 ret2 d2 hle2]
        exact hfs

/-! ## Reachability invariant of the edit loop -/

/-- What a run of the edit loop can do to its state, relative to the captured
bounds: cursors only grow, never past their bounds; the output grows by
exactly the destination-cursor increase; the source stream only advances, in
lockstep with the source cursor. -/
def Reach (sL dL : Nat) (st st2 : EditSt) : Prop :=
  st.srcCur ≤ st2.srcCur ∧ (st.srcCur ≤ sL → st2.srcCur ≤ sL) ∧
  st.dstCur ≤ st2.dstCur ∧ (st.dstCur ≤ dL → st2.dstCur ≤ dL) ∧
  (∃ extra, st2.out = st.out ++ extra ∧ extra.length + st.dstCur = st2.dstCur) ∧
  (∀ l, st.src = some l → ∃ pre l2, l = pre ++ l2 ∧ st2.src = some l2 ∧
    pre.length + st.srcCur = st2.srcCur)

theorem reach_refl (sL dL : Nat) (st : EditSt) : Reach sL dL st st :=
  ⟨Nat.le_refl _, id, Nat.le_refl _, id, ⟨[], by simp⟩,
   fun l hl => ⟨[], l, by simp [hl]⟩⟩

theorem reach_trans (sL dL : Nat) (st st2 st3 : EditSt)
    (h1 : Reach sL dL st st2) (h2 : Reach sL dL st2 st3) : Reach sL dL st st3 := by
  obtain ⟨a1, a2, a3, a4, ⟨e1, he1, hd1⟩, hs1⟩ := h1
  obtain ⟨b1, b2, b3, b4, ⟨e2, he2, hd2⟩, hs2⟩ := h2
  refine ⟨Nat.le_trans a1 b1, fun h => b2 (a2 h), Nat.le_trans a3 b3, fun h => b4 (a4 h),
    ⟨e1 ++ e2, by rw [he2, he1, List.append_assoc], by simp; omega⟩, ?_⟩
  intro l hl
  obtain ⟨p1, l1, hsplit1, hsrc1, hlen1⟩ := hs1 l hl
  obtain ⟨p2, l2, hsplit2, hsrc2, hlen2⟩ := hs2 l1 hsrc1
  exact ⟨p1 ++ p2, l2, by rw [hsplit1, hsplit2, List.append_assoc], hsrc2,
    by simp; omega⟩

theorem reach_read (sL dL : Nat) (st : EditSt) (s : Line) (ss : List Line)
    (hsrc : st.src = some (s :: ss)) (hb : st.srcCur ≠ sL) :
    Reach sL dL st { st with src := some ss, srcCur := st.srcCur + 1 } := by
  refine ⟨Nat.le_succ _, fun h => ?_, Nat.le_refl _, id, ⟨[], by simp⟩, ?_⟩
  · show st.srcCur + 1 ≤ sL
    omega
  · intro l hl
    rw [hl] at hsrc
    cases hsrc
    refine ⟨[s], ss, rfl, rfl, ?_⟩
    show 1 + st.srcCur = st.srcCur + 1
    omega

theorem reach_write (sL dL : Nat) (st : EditSt) (pay : Line)
    (hb : st.dstCur ≠ dL) :
    Reach sL dL st { st with out := st.out ++ [pay], dstCur := st.dstCur + 1 } := by
  refine ⟨Nat.le_refl _, id, Nat.le_succ _, fun h => ?_, ⟨[pay], rfl, ?_⟩,
    fun l hl => ⟨[], l, by simp [hl]⟩⟩
  · show st.dstCur + 1 ≤ dL
    omega
  · show 1 + st.dstCur = st.dstCur + 1
    omega

theorem reach_read_write (sL dL : Nat) (st : EditSt) (s : Line) (ss : List Line) (pay : Line)
    (hsrc : st.src = some (s :: ss)) (hsb : st.srcCur ≠ sL) (hdb : st.dstCur ≠ dL) :
    Reach sL dL st { st with src := some ss, out := st.out ++ [pay],
                             srcCur := st.srcCur + 1, dstCur := st.dstCur + 1 } := by
  refine ⟨Nat.le_succ _, fun h => ?_, Nat.le_succ _, fun h => ?_,
    ⟨[pay], rfl, ?_⟩, ?_⟩
  · show st.srcCur + 1 ≤ sL
    omega
  · show st.dstCur + 1 ≤ dL
    omega
  · show 1 + st.dstCur = st.dstCur + 1
    omega
  · intro l hl
    rw [hl] at hsrc
    cases hsrc
    refine ⟨[s], ss, rfl, rfl, ?_⟩
    show 1 + st.srcCur = st.srcCur + 1
    omega

theorem edit_loop_reach (plus : Char) (optN : Bool) (sL dL : Nat) :
    ∀ (p : List Line) (st : EditSt),
      Reach sL dL st (edit_loop plus optN sL dL p st).2.2.1 := by
  intro p
  induction p with
  | nil => intro st; exact reach_refl _ _ _
  | cons l0 rest ih =>
    intro st
    simp only [edit_loop]
    repeat' split
    all_goals first
      | exact reach_refl _ _ _
      | exact reach_read _ _ _ _ _ (by assumption) (by assumption)
      | exact reach_trans _ _ _ _ _
          (reach_read_write _ _ _ _ _ _ (by assumption) (by assumption) (by assumption)) (ih _)
      | exact reach_trans _ _ _ _ _
          (reach_read _ _ _ _ _ (by assumption) (by assumption)) (ih _)
      | exact reach_trans _ _ _ _ _ (reach_write _ _ _ _ (by assumption)) (ih _)
      | exact ih _

/-! ## Lookup lemmas for the filesystem model -/

theorem alookup_aremove_self (files : List (Line × List Line)) (p : Line) :
    alookup (aremove files p) p = none := by
  induction files with
  | nil => rfl
  | cons kv rest ih =>
    by_cases h : kv.1 = p
    · simpa [aremove, h] using ih
    · simpa [aremove, alookup, h] using ih

theorem alookup_aremove_ne (files : List (Line × List Line)) (p q : Line) (h : q ≠ p) :
    alookup (aremove files p) q = alookup files q := by
  induction files with
  | nil => rfl
  | cons kv rest ih =>
    simp only [aremove, List.filter_cons]
    by_cases hk : kv.1 = p
    · rw [show (decide (kv.1 ≠ p)) = false by simp [hk]]
      simp only [Bool.false_eq_true, if_false]
      rw [show alookup (kv :: rest) q = alookup rest q from by
        simp only [alookup]
        rw [if_neg (fun hq : kv.1 = q => h (by rw [← hq, hk]))]]
      exact ih
    · rw [show (decide (kv.1 ≠ p)) = true by simp [hk]]
      simp only [if_true]
      simp only [alookup]
      by_cases hq : kv.1 = q
      · rw [if_pos hq, if_pos hq]
      · rw [if_neg hq, if_neg hq]
        exact ih

theorem alookup_aset_self (files : List (Line × List Line)) (p : Line) (c : List Line) :
    alookup (aset files p c) p = some c := by
  simp [aset, alookup]

theorem alookup_aset_ne (files : List (Line × List Line)) (p q : Line) (c : List Line)
    (h : q ≠ p) :
    alookup (aset files p c) q = alookup files q := by
  simp only [aset, alookup]
  rw [if_neg (fun hq => h hq.symm)]
  exact alookup_aremove_ne files p q h

theorem append_ne_self (name suffix : Line) (h : suffix ≠ []) : name ++ suffix ≠ name := by
  intro he
  have h2 := congrArg List.length he
  simp at h2
  exact h h2

/-! ## Diagnostic and exit-status lemmas -/

theorem hunk_edit_diags (plus : Char) (optN : Bool) (sl dl : Nat) (rest : List Line)
    (st : HSt) (st2 : HSt) (c : Option Line) (r : List Line)
    (h : hunk_edit plus optN sl dl rest st = .next st2 c r) :
    st2.diags = st.diags ∨ ∃ a b, st2.diags = st.diags ++ [Diag.hunkFailed a b] := by
  simp only [hunk_edit] at h
  split at h <;> cases h
  · exact Or.inr ⟨_, _, rfl⟩
  · exact Or.inl rfl

theorem hunk_step_diags (plus : Char) (optN : Bool) (cur : Line) (rest : List Line)
    (st : HSt) (st2 : HSt) (c : Option Line) (r : List Line)
    (h : hunk_step plus optN cur rest st = .next st2 c r) :
    st2.diags = st.diags ∨ ∃ a b, st2.diags = st.diags ++ [Diag.hunkFailed a b] := by
  simp only [hunk_step] at h
  split at h
  · cases h
  · split at h
    · split at h
      · have h2 := hunk_edit_diags _ _ _ _ _ _ _ _ _ h
        exact h2
      · cases h
    · have h2 := hunk_edit_diags _ _ _ _ _ _ _ _ _ h
      exact h2

theorem hunk_loop_diags_aux (plus : Char) (optN : Bool) :
    ∀ (n : Nat) (cur : Option Line) (rest : List Line) (st : HSt) (st2 : HSt)
      (c2 : Option Line) (r2 : List Line),
      rest.length + muOpt cur ≤ n →
      hunk_loop plus optN cur rest st = .done st2 c2 r2 →
      ∃ d, st2.diags = st.diags ++ d ∧ ∀ x ∈ d, ∃ a b, x = Diag.hunkFailed a b := by
  intro n
  induction n with
  | zero =>
    intro cur rest st st2 c2 r2 hle h
    cases cur with
    | none =>
      rw [hunk_loop_none] at h
      cases h
      exact ⟨[], by simp⟩
    | some c => simp [muOpt] at hle
  | succ m ih =>
    intro cur rest st st2 c2 r2 hle h
    cases cur with
    | none =>
      rw [hunk_loop_none] at h
      cases h
      exact ⟨[], by simp⟩
    | some c =>
      rw [hunk_loop_some] at h
      cases hstep : hunk_step plus optN c rest st with
      | stop st3 c3 r3 =>
        rw [hstep] at h
        cases h
        obtain ⟨hst, _, _⟩ := hunk_step_stop _ _ _ _ _ _ _ _ hstep
        subst hst
        exact ⟨[], by simp⟩
      | fatalStep st3 =>
        rw [hstep] at h
        cases h
      | next st3 c3 r3 =>
        rw [hstep] at h
        have h4 : hunk_loop plus optN c3 r3 st3 = .done st2 c2 r2 := h
        have hh := hunk_step_next _ _ _ _ _ _ _ _ hstep
        have hle2 : rest.length + 1 ≤ m + 1 := by simpa [muOpt] using hle
        have hmu : r3.length + muOpt c3 ≤ m := by
          cases rest with
          | nil =>
            obtain ⟨h1, h2⟩ := hh.2.1 rfl
            subst h1; subst h2
            simp [muOpt]
          | cons a tl =>
            have h3 := hh.2.2 (by simp)
            simp only [List.length_cons] at h3 hle2 ⊢
            cases c3 <;> simp only [muOpt] <;> omega
        obtain ⟨d2, hd2, hall2⟩ := ih c3 r3 st3 st2 c2 r2 hmu h4
        rcases hunk_step_diags _ _ _ _ _ _ _ _ hstep with h5 | ⟨a, b, h5⟩
        · exact ⟨d2, by rw [hd2, h5], hall2⟩
        · refine ⟨[Diag.hunkFailed a b] ++ d2, by rw [hd2, h5, List.append_assoc], ?_⟩
          intro x hx
          rcases List.mem_append.mp hx with hx | hx
          · rcases List.mem_singleton.mp hx with rfl
            exact ⟨a, b, rfl⟩
          · exact hall2 x hx

theorem sec_core_diags (o : Opts) (fs : FS) (name : Line) (srcC : Option (List Line))
    (backup : Option Line) (cur0 : Option Line) (rest0 : List Line) (diags0 : List Diag)
    (fs2 : FS) (bad : Nat) (d2 : List Diag) (c2 : Option Line) (r2 : List Line)
    (h : sec_core o fs name srcC backup cur0 rest0 diags0 = .ok fs2 bad d2 c2 r2) :
    ∃ dNew, d2 = diags0 ++ dNew ∧
      ((∃ b t, Diag.hunksFailed b t ∈ dNew) ↔ bad ≠ 0) := by
  simp only [sec_core] at h
  split at h
  · cases h
  · rename_i st cur3 rest3 heq
    cases h
    obtain ⟨d, hd, hall⟩ :=
      hunk_loop_diags_aux o.plus o.optN (rest0.length + muOpt cur0) cur0 rest0 _
        st c2 r2 (Nat.le_refl _) heq
    simp only [] at hd
    by_cases hbad : st.bad ≠ 0
    · refine ⟨d ++ [Diag.hunksFailed st.bad st.hcount], ?_, ?_⟩
      · rw [if_pos hbad, hd, List.append_assoc]
      · constructor
        · intro _; exact hbad
        · intro _; exact ⟨st.bad, st.hcount, by simp⟩
    · refine ⟨d, ?_, ?_⟩
      · rw [if_neg hbad, hd]
      · constructor
        · intro ⟨b, t, hmem⟩
          obtain ⟨a2, b2, hx⟩ := hall _ hmem
          cases hx
        · intro hc; exact absurd hc hbad

theorem process_section_diags (o : Opts) (fs : FS) (name : Line) (cur0 : Option Line)
    (rest0 : List Line) (diags0 : List Diag)
    (fs2 : FS) (bad : Nat) (d2 : List Diag) (c2 : Option Line) (r2 : List Line)
    (h : process_section o fs name cur0 rest0 diags0 = .ok fs2 bad d2 c2 r2) :
    ∃ dNew, d2 = diags0 ++ dNew ∧
      ((∃ b t, Diag.hunksFailed b t ∈ dNew) ↔ bad ≠ 0) := by
  simp only [process_section] at h
  have key : ∀ (fsX : FS) (srcC : Option (List Line)) (backup : Option Line),
      sec_core o fsX name srcC backup cur0 rest0 (diags0 ++ [Diag.patching name]) =
        .ok fs2 bad d2 c2 r2 →
      ∃ dNew, d2 = diags0 ++ dNew ∧
        ((∃ b t, Diag.hunksFailed b t ∈ dNew) ↔ bad ≠ 0) := by
    intro fsX srcC backup hsec
    obtain ⟨dNew, hd, hiff⟩ := sec_core_diags _ _ _ _ _ _ _ _ _ _ _ _ _ hsec
    refine ⟨[Diag.patching name] ++ dNew, by rw [hd, List.append_assoc], ?_⟩
    rw [← hiff]
    constructor
    · intro ⟨b, t, hmem⟩
      rcases List.mem_append.mp hmem with hx | hx
      · rcases List.mem_singleton.mp hx with hx2
        cases hx2
      · exact ⟨b, t, hx⟩
    · intro ⟨b, t, hmem⟩
      exact ⟨b, t, List.mem_append.mpr (Or.inr hmem)⟩
  split at h
  · exact key _ _ _ h
  · split at h
    · exact key _ _ _ h
    · exact key _ _ _ h

theorem run_step_inl_ok (o : Opts) (c : Line) (rest : List Line) (fs : FS) (ret : Nat)
    (diags : List Diag) (r : RunRes) (h : run_step o c rest fs ret diags = .inl r) :
    r = .ok fs ret diags ∨ ∃ fsF dF, r = .fatal fsF dF := by
  simp only [run_step] at h
  split at h
  · cases h; exact Or.inl rfl
  · split at h
    · cases h; exact Or.inr ⟨_, _, rfl⟩
    · split at h
      · split at h
        · cases h; exact Or.inr ⟨_, _, rfl⟩
        · cases h
      · split at h
        · cases h; exact Or.inr ⟨_, _, rfl⟩
        · cases h

theorem run_step_inr_props (o : Opts) (c : Line) (rest : List Line) (fs : FS) (ret : Nat)
    (diags : List Diag) (c3 : Option Line) (r3 : List Line) (fs3 : FS) (ret3 : Nat)
    (d3 : List Diag)
    (h : run_step o c rest fs ret diags = .inr (c3, r3, fs3, ret3, d3)) :
    ∃ dNew, d3 = diags ++ dNew ∧
      (ret3 = 1 ↔ (ret = 1 ∨ ∃ b t, Diag.hunksFailed b t ∈ dNew)) ∧
      ((ret = 0 ∨ ret = 1) → (ret3 = 0 ∨ ret3 = 1)) := by
  simp only [run_step] at h
  split at h
  · cases h
  · split at h
    · cases h
    · have key : ∀ (name : Line) (cur0 : Option Line) (rest0 : List Line)
          (fs4 : FS) (bad4 : Nat) (d4 : List Diag) (cur4 : Option Line) (rest4 : List Line),
          process_section o fs name cur0 rest0 diags = .ok fs4 bad4 d4 cur4 rest4 →
          (Sum.inr (cur4, rest4, fs4, if bad4 ≠ 0 then 1 else ret, d4) :
              RunRes ⊕ (Option Line × List Line × FS × Nat × List Diag))
            = .inr (c3, r3, fs3, ret3, d3) →
          ∃ dNew, d3 = diags ++ dNew ∧
            (ret3 = 1 ↔ (ret = 1 ∨ ∃ b t, Diag.hunksFailed b t ∈ dNew)) ∧
            ((ret = 0 ∨ ret = 1) → (ret3 = 0 ∨ ret3 = 1)) := by
        intro name cur0 rest0 fs4 bad4 d4 cur4 rest4 hsec heq2
        cases heq2
        obtain ⟨dNew, hd, hiff⟩ := process_section_diags _ _ _ _ _ _ _ _ _ _ _ hsec
        refine ⟨dNew, hd, ?_, ?_⟩
        · by_cases hb : bad4 ≠ 0
          · rw [if_pos hb]
            exact ⟨fun _ => Or.inr (hiff.mpr hb), fun _ => rfl⟩
          · rw [if_neg hb]
            constructor
            · exact fun h2 => Or.inl h2
            · rintro (h2 | h2)
              · exact h2
              · exact absurd (hiff.mp h2) hb
        · intro hret
          by_cases hb : bad4 ≠ 0
          · rw [if_pos hb]; exact Or.inr rfl
          · rw [if_neg hb]; exact hret
      split at h
      · split at h
        · cases h
        · rename_i fs4 bad4 d4 cur4 rest4 hsec
          exact key _ _ _ _ _ _ _ _ hsec h
      · split at h
        · cases h
        · rename_i fs4 bad4 d4 cur4 rest4 hsec
          exact key _ _ _ _ _ _ _ _ hsec h

theorem run_loop_ret_aux (o : Opts) :
    ∀ (n : Nat) (cur : Option Line) (rest : List Line) (fs : FS) (ret : Nat)
      (diags : List Diag) (fs2 : FS) (r2 : Nat) (d2 : List Diag),
      rest.length + muOpt cur ≤ n →
      (ret = 0 ∨ ret = 1) →
      run_loop o cur rest fs ret diags = .ok fs2 r2 d2 →
      ∃ dNew, d2 = diags ++ dNew ∧
        (r2 = 1 ↔ (ret = 1 ∨ ∃ b t, Diag.hunksFailed b t ∈ dNew)) ∧
        (r2 = 0 ∨ r2 = 1) := by
  intro n
  induction n with
  | zero =>
    intro cur rest fs ret diags fs2 r2 d2 hle hret h
    cases cur with
    | none =>
      rw [run_loop_none] at h
      cases h
      exact ⟨[], by simp, by simp, hret⟩
    | some c => simp [muOpt] at hle
  | succ m ih =>
    intro cur rest fs ret diags fs2 r2 d2 hle hret h
    cases cur with
    | none =>
      rw [run_loop_none] at h
      cases h
      exact ⟨[], by simp, by simp, hret⟩
    | some c =>
      rw [run_loop_some] at h
      cases hstep : run_step o c rest fs ret diags with
      | inl r =>
        rw [hstep] at h
        have h2 : r = .ok fs2 r2 d2 := h
        rcases run_step_inl_ok _ _ _ _ _ _ _ hstep with hr | ⟨fsF, dF, hr⟩
        · rw [hr] at h2
          cases h2
          exact ⟨[], by simp, by simp, hret⟩
        · rw [hr] at h2
          cases h2
      | inr t =>
        obtain ⟨c3, r3, fs3, ret3, d3⟩ := t
        rw [hstep] at h
        have h4 : run_loop o c3 r3 fs3 ret3 d3 = .ok fs2 r2 d2 := h
        obtain ⟨dNew1, hd1, hiff1, hrange1⟩ := run_step_inr_props _ _ _ _ _ _ _ _ _ _ _ hstep
        have hmu := run_step_inr _ _ _ _ _ _ _ _ _ _ _ hstep
        have hle2 : r3.length + muOpt c3 ≤ m := by
          simp only [muOpt] at hle hmu ⊢
          omega
        obtain ⟨dNew2, hd2, hiff2, hrange2⟩ :=
          ih c3 r3 fs3 ret3 d3 fs2 r2 d2 hle2 (hrange1 hret) h4
        refine ⟨dNew1 ++ dNew2, by rw [hd2, hd1, List.append_assoc], ?_, hrange2⟩
        rw [hiff2, hiff1]
        constructor
        · rintro ((h5 | h5) | h5)
          · exact Or.inl h5
          · obtain ⟨b, t, hm⟩ := h5
            exact Or.inr ⟨b, t, List.mem_append.mpr (Or.inl hm)⟩
          · obtain ⟨b, t, hm⟩ := h5
            exact Or.inr ⟨b, t, List.mem_append.mpr (Or.inr hm)⟩
        · rintro (h5 | ⟨b, t, hm⟩)
          · exact Or.inl (Or.inl h5)
          · rcases List.mem_append.mp hm with hm2 | hm2
            · exact Or.inl (Or.inr ⟨b, t, hm2⟩)
            · exact Or.inr ⟨b, t, hm2⟩

theorem sec_core_bad_files (o : Opts) (fs : FS) (name : Line) (srcC : Option (List Line))
    (backup : Option Line) (cur0 : Option Line) (rest0 : List Line) (diags : List Diag)
    (fs2 : FS) (bad : Nat) (d2 : List Diag) (c2 : Option Line) (r2 : List Line)
    (hdry : o.dryRun = false)
    (h : sec_core o fs name srcC backup cur0 rest0 diags = .ok fs2 bad d2 c2 r2)
    (hbad : bad ≠ 0) :
    ∃ outAll, fs2.files = aset fs.files name outAll := by
  simp only [sec_core] at h
  split at h
  · cases h
  · rename_i st cur3 rest3 heq
    cases h
    exact ⟨if st.flag = true then st.out ++ (copy_lines st.src [] 4294967295).2.1 else st.out,
      by simp [finalize, hdry, hbad]⟩

/-! ## Hunk-mismatch helper lemmas -/

theorem parse_hunk_header_edit_line (l : Line) (hne : l ≠ [])
    (hc : l.headD ' ' = '-' ∨ l.headD ' ' = '+' ∨ l.headD ' ' = ' ') :
    parse_hunk_header l = none := by
  cases l with
  | nil => exact absurd rfl hne
  | cons c tl =>
    simp only [List.headD_cons] at hc
    rcases hc with h | h | h <;> subst h <;>
      simp [parse_hunk_header, parseForm1, parseForm2, lit]

theorem edit_loop_fail_line (plus : Char) (optN : Bool) (sL dL : Nat) :
    ∀ (p : List Line) (st : EditSt),
      (edit_loop plus optN sL dL p st).2.2.2 = true →
      ∀ l, (edit_loop plus optN sL dL p st).2.1 = some l →
      parse_hunk_header l = none := by
  intro p
  induction p with
  | nil =>
    intro st h
    simp [edit_loop] at h
  | cons l0 rest ih =>
    intro st h l hl
    have hcomb : ((edit_loop plus optN sL dL (l0 :: rest) st).2.2.2 = true) ∧
        ((edit_loop plus optN sL dL (l0 :: rest) st).2.1 = some l) := ⟨h, hl⟩
    clear h hl
    simp only [edit_loop] at hcomb
    repeat' split at hcomb
    all_goals obtain ⟨h1, h2⟩ := hcomb
    all_goals first
      | (cases h2
         exact parse_hunk_header_edit_line _ (by first | assumption | simp)
           (not_not.mp (by assumption)))
      | exact ih _ h1 _ h2
      | exact absurd h1 (by simp)

theorem hunk_loop_stops_on_non_header (plus : Char) (optN : Bool) (l : Line)
    (rest : List Line) (st : HSt) (h : parse_hunk_header l = none) :
    hunk_loop plus optN (some l) rest st = .done st (some l) rest := by
  rw [hunk_loop_some]
  rw [show hunk_step plus optN l rest st = .stop st (some l) rest from by
    simp [hunk_step, parse_swapped, h]]

/-! ## Well-formed single-section patches, for the forward/reverse roundtrip -/

/-- One hunk of a unified-diff file section: the header line, the four header
fields it parses to, and the body lines. -/
structure Hunk where
  header : Line
  sb : Nat
  sl : Nat
  db : Nat
  dl : Nat
  body : List Line
deriving Repr, DecidableEq

/-- The patch-stream lines of a list of hunks. -/
def streamOf : List Hunk → List Line
  | [] => []
  | h :: hs => h.header :: (h.body ++ streamOf hs)

/-- The line in hand when the hunk loop starts on a list of hunks. -/
def streamHead : List Hunk → Option Line
  | [] => none
  | h :: _ => some h.header

/-- The remaining patch lines when the hunk loop starts on a list of hunks. -/
def streamTail : List Hunk → List Line
  | [] => []
  | h :: hs => h.body ++ streamOf hs

/-- A single-file-section patch: the two marker lines followed by the hunk
lines. -/
def patchOf (n : Line) (hs : List Hunk) : List Line :=
  (str "--- " ++ n) :: (str "+++ " ++ n) :: streamOf hs

/-- The marker character of a patch body line. -/
def markerOf (l : Line) : Char := l.headD ' '

/-- The source-side payloads of a hunk body under active add marker `plus`:
the lines the edit loop compares against (and consumes from) the source. -/
def hunkTake (plus : Char) (body : List Line) : List Line :=
  body.filterMap (fun l => if markerOf l = plus then none else some l.tail)

/-- The destination-side payloads of a hunk body under active add marker
`plus`: the lines the edit loop writes to the destination. -/
def hunkGive (plus : Char) (body : List Line) : List Line :=
  body.filterMap (fun l => if markerOf l = plus ∨ markerOf l = ' ' then some l.tail else none)

/-- Every body line is nonempty and starts with '-', '+' or ' '. -/
def bodyOK (body : List Line) : Bool :=
  body.all (fun l => !l.isEmpty &&
    (markerOf l == '-' || markerOf l == '+' || markerOf l == ' '))

/-- Post-swap source start under active add marker `plus`. -/
def hsb (plus : Char) (h : Hunk) : Nat := if plus = '+' then h.sb else h.db

/-- Post-swap source count under active add marker `plus`. -/
def hsl (plus : Char) (h : Hunk) : Nat := if plus = '+' then h.sl else h.dl

/-- Post-swap destination start under active add marker `plus`. -/
def hdb (plus : Char) (h : Hunk) : Nat := if plus = '+' then h.db else h.sb

/-- Post-swap destination count under active add marker `plus`. -/
def hdl (plus : Char) (h : Hunk) : Nat := if plus = '+' then h.dl else h.sl

/-- Well-formedness of a hunk list under active add marker `plus`, relative to
the source cursor `σ`, the destination cursor `δ` and the remaining source
lines `rest`: each header parses to the stored fields, each body line is a
nonempty marker line, each body has a context line, the post-swap start
positions are consistent with the cursors, the declared post-swap counts match
the body exactly, and the source-side body payloads match the source lines at
the hunk position. -/
def hunksOK (plus : Char) : Nat → Nat → List Line → List Hunk → Bool
  | _, _, _, [] => true
  | σ, δ, rest, h :: hs =>
    (parse_hunk_header h.header == some (h.sb, h.sl, h.db, h.dl)) &&
    bodyOK h.body &&
    h.body.any (fun l => markerOf l == ' ') &&
    decide (σ ≤ hsb plus h) &&
    (hdb plus h == δ + (hsb plus h - σ) + 1) &&
    ((hunkTake plus h.body).length == hsl plus h) &&
    ((hunkGive plus h.body).length == hdl plus h) &&
    (hunkTake plus h.body).isPrefixOf (rest.drop (hsb plus h - σ)) &&
    hunksOK plus (hsb plus h + hsl plus h) (hdb plus h - 1 + hdl plus h)
      (rest.drop ((hsb plus h - σ) + hsl plus h)) hs

/-- The source lines remaining after all hunks (flushed to the destination at
cleanup). -/
def restAfter (plus : Char) : Nat → List Line → List Hunk → List Line
  | _, rest, [] => rest
  | σ, rest, h :: hs =>
    restAfter plus (hsb plus h + hsl plus h) (rest.drop ((hsb plus h - σ) + hsl plus h)) hs

/-- The destination lines written by the hunk loop. -/
def outOf (plus : Char) : Nat → List Line → List Hunk → List Line
  | _, _, [] => []
  | σ, rest, h :: hs =>
    rest.take (hsb plus h - σ) ++ hunkGive plus h.body ++
      outOf plus (hsb plus h + hsl plus h) (rest.drop ((hsb plus h - σ) + hsl plus h)) hs

/-- The source cursor after all hunks. -/
def sigAfter (plus : Char) : Nat → List Hunk → Nat
  | σ, [] => σ
  | _, h :: hs => sigAfter plus (hsb plus h + hsl plus h) hs

/-- The destination cursor after all hunks. -/
def delAfter (plus : Char) : Nat → List Hunk → Nat
  | δ, [] => δ
  | _, h :: hs => delAfter plus (hdb plus h - 1 + hdl plus h) hs

/-- The last parsed post-swap destination start (`dst_beg_line`) after all
hunks. -/
def dbegAfter (plus : Char) : Nat → List Hunk → Nat
  | d, [] => d
  | _, h :: hs => dbegAfter plus (hdb plus h) hs

theorem copy_lines_exact : ∀ (n : Nat) (l acc : List Line), n ≤ l.length →
    copy_lines (some l) acc n = (some (l.drop n), acc ++ l.take n, 0) := by
  intro n
  induction n with
  | zero => intro l acc _; simp [copy_lines]
  | succ m ih =>
    intro l acc hle
    cases l with
    | nil => simp at hle
    | cons c ls =>
      simp only [copy_lines]
      rw [ih ls (acc ++ [c]) (by simpa using hle)]
      simp

theorem copy_lines_all : ∀ (l acc : List Line) (n : Nat), l.length ≤ n →
    copy_lines (some l) acc n = (some [], acc ++ l, n - l.length) := by
  intro l
  induction l with
  | nil => intro acc n _; cases n <;> simp [copy_lines]
  | cons c ls ih =>
    intro acc n hle
    cases n with
    | zero => simp at hle
    | succ m =>
      simp only [copy_lines]
      rw [ih (acc ++ [c]) m (by simpa using hle)]
      simp [Nat.succ_sub_succ]

theorem parse_hunk_header_at (l : Line) (r : Nat × Nat × Nat × Nat)
    (h : parse_hunk_header l = some r) : ∃ t, l = '@' :: t := by
  cases l with
  | nil => simp [parse_hunk_header, parseForm1, parseForm2, lit] at h
  | cons c t =>
    by_cases hc : c = '@'
    · exact ⟨t, by rw [hc]⟩
    · simp [parse_hunk_header, parseForm1, parseForm2, lit, hc] at h

theorem header_not_marker (l : Line) (r : Nat × Nat × Nat × Nat)
    (h : parse_hunk_header l = some r) :
    l ≠ [] ∧ ¬(l.headD ' ' = '-' ∨ l.headD ' ' = '+' ∨ l.headD ' ' = ' ') := by
  obtain ⟨t, rfl⟩ := parse_hunk_header_at l r h
  refine ⟨by simp, by simp⟩

theorem hunkTake_cons_skip (plus : Char) (l : Line) (tl : List Line) (h : markerOf l = plus) :
    hunkTake plus (l :: tl) = hunkTake plus tl := by
  simp [hunkTake, h]

theorem hunkTake_cons_keep (plus : Char) (l : Line) (tl : List Line) (h : markerOf l ≠ plus) :
    hunkTake plus (l :: tl) = l.tail :: hunkTake plus tl := by
  simp [hunkTake, h]

theorem hunkGive_cons_keep (plus : Char) (l : Line) (tl : List Line)
    (h : markerOf l = plus ∨ markerOf l = ' ') :
    hunkGive plus (l :: tl) = l.tail :: hunkGive plus tl := by
  simp [hunkGive, h]

theorem hunkGive_cons_skip (plus : Char) (l : Line) (tl : List Line)
    (h : ¬(markerOf l = plus ∨ markerOf l = ' ')) :
    hunkGive plus (l :: tl) = hunkGive plus tl := by
  simp [hunkGive, h]

theorem edit_loop_exact (plus : Char) (hp : plus = '+' ∨ plus = '-') :
    ∀ (body after src0 out0 : List Line) (sc dc sL dL : Nat),
      bodyOK body = true →
      hunkTake plus body <+: src0 →
      sL = sc + (hunkTake plus body).length →
      dL = dc + (hunkGive plus body).length →
      (after = [] ∨ ∃ a as, after = a :: as ∧ a ≠ [] ∧
        ¬(a.headD ' ' = '-' ∨ a.headD ' ' = '+' ∨ a.headD ' ' = ' ')) →
      edit_loop plus false sL dL (body ++ after) ⟨some src0, out0, sc, dc⟩ =
        (after.tail, after.head?,
         ⟨some (src0.drop (hunkTake plus body).length), out0 ++ hunkGive plus body, sL, dL⟩,
         false) := by
  intro body
  induction body with
  | nil =>
    intro after src0 out0 sc dc sL dL _ _ hsL hdL hafter
    simp only [hunkTake, hunkGive, List.filterMap_nil, List.length_nil, Nat.add_zero] at hsL hdL
    subst hsL; subst hdL
    rcases hafter with rfl | ⟨a, as, rfl, hne, hnm⟩
    · simp [edit_loop, hunkTake, hunkGive]
    · simp only [List.nil_append, List.drop_zero, List.append_nil, edit_loop]
      rw [if_neg hne, if_pos hnm]
      simp [hunkTake, hunkGive]
  | cons l tl ih =>
    intro after src0 out0 sc dc sL dL hbody hpre hsL hdL hafter
    have hbody2 : (!l.isEmpty &&
        (markerOf l == '-' || markerOf l == '+' || markerOf l == ' ')) = true ∧
        bodyOK tl = true := by
      simpa [bodyOK, List.all_cons] using hbody
    obtain ⟨hhead, htl⟩ := hbody2
    simp only [Bool.and_eq_true, Bool.not_eq_true', Bool.or_eq_true, beq_iff_eq] at hhead
    obtain ⟨hlE, hm⟩ := hhead
    have hl : l ≠ [] := by
      cases l with
      | nil => simp at hlE
      | cons c cs => simp
    obtain ⟨c0, cs, rfl⟩ : ∃ c0 cs, l = c0 :: cs := by
      cases l with
      | nil => exact absurd rfl hl
      | cons c0 cs => exact ⟨c0, cs, rfl⟩
    rcases hp with rfl | rfl <;> rcases hm with (hm | hm) | hm <;>
      (have hc0 : c0 = _ := hm; subst hc0)
    · -- forward, removal line
      rw [hunkTake_cons_keep '+' _ tl (by simp [markerOf])] at hpre hsL ⊢
      rw [hunkGive_cons_skip '+' _ tl (by simp [markerOf])] at hdL ⊢
      obtain ⟨t0, ht0⟩ := hpre
      subst ht0
      simp only [List.length_cons] at hsL
      have hscne : sc ≠ sL := by omega
      simp only [List.cons_append]
      simp [edit_loop, hscne]
      rw [ih after (hunkTake '+' tl ++ t0) out0 (sc + 1) dc sL dL htl
          (List.prefix_append _ _) (by omega) hdL hafter]
      try simp
    · -- forward, add line
      rw [hunkTake_cons_skip '+' _ tl (by simp [markerOf])] at hpre hsL ⊢
      rw [hunkGive_cons_keep '+' _ tl (by simp [markerOf])] at hdL ⊢
      simp only [List.length_cons] at hdL
      have hdcne : dc ≠ dL := by omega
      simp only [List.cons_append]
      simp [edit_loop, hdcne]
      rw [ih after src0 (out0 ++ [cs]) sc (dc + 1) sL dL htl hpre hsL
          (by omega) hafter]
      try simp
    · -- forward, context line
      rw [hunkTake_cons_keep '+' _ tl (by simp [markerOf])] at hpre hsL ⊢
      rw [hunkGive_cons_keep '+' _ tl (by simp [markerOf])] at hdL ⊢
      obtain ⟨t0, ht0⟩ := hpre
      subst ht0
      simp only [List.length_cons] at hsL hdL
      have hscne : sc ≠ sL := by omega
      have hdcne : dc ≠ dL := by omega
      simp only [List.cons_append]
      simp [edit_loop, hscne, hdcne]
      rw [ih after (hunkTake '+' tl ++ t0) (out0 ++ [cs]) (sc + 1) (dc + 1)
          sL dL htl (List.prefix_append _ _) (by omega) (by omega) hafter]
      try simp
    · -- reverse, add line
      rw [hunkTake_cons_skip '-' _ tl (by simp [markerOf])] at hpre hsL ⊢
      rw [hunkGive_cons_keep '-' _ tl (by simp [markerOf])] at hdL ⊢
      simp only [List.length_cons] at hdL
      have hdcne : dc ≠ dL := by omega
      simp only [List.cons_append]
      simp [edit_loop, hdcne]
      rw [ih after src0 (out0 ++ [cs]) sc (dc + 1) sL dL htl hpre hsL
          (by omega) hafter]
      try simp
    · -- reverse, removal line
      rw [hunkTake_cons_keep '-' _ tl (by simp [markerOf])] at hpre hsL ⊢
      rw [hunkGive_cons_skip '-' _ tl (by simp [markerOf])] at hdL ⊢
      obtain ⟨t0, ht0⟩ := hpre
      subst ht0
      simp only [List.length_cons] at hsL
      have hscne : sc ≠ sL := by omega
      simp only [List.cons_append]
      simp [edit_loop, hscne]
      rw [ih after (hunkTake '-' tl ++ t0) out0 (sc + 1) dc sL dL htl
          (List.prefix_append _ _) (by omega) hdL hafter]
      try simp
    · -- reverse, context line
      rw [hunkTake_cons_keep '-' _ tl (by simp [markerOf])] at hpre hsL ⊢
      rw [hunkGive_cons_keep '-' _ tl (by simp [markerOf])] at hdL ⊢
      obtain ⟨t0, ht0⟩ := hpre
      subst ht0
      simp only [List.length_cons] at hsL hdL
      have hscne : sc ≠ sL := by omega
      have hdcne : dc ≠ dL := by omega
      simp only [List.cons_append]
      simp [edit_loop, hscne, hdcne]
      rw [ih after (hunkTake '-' tl ++ t0) (out0 ++ [cs]) (sc + 1) (dc + 1)
          sL dL htl (List.prefix_append _ _) (by omega) (by omega) hafter]
      try simp


theorem hunkTake_has_context (plus : Char) (hp : plus = '+' ∨ plus = '-') :
    ∀ (body : List Line), body.any (fun l => markerOf l == ' ') = true →
      1 ≤ (hunkTake plus body).length := by
  intro body
  induction body with
  | nil => intro h; simp at h
  | cons l tl ih =>
    intro h
    simp only [List.any_cons, Bool.or_eq_true, beq_iff_eq] at h
    rcases h with h | h
    · rw [hunkTake_cons_keep plus l tl (by rcases hp with rfl | rfl <;> simp [h])]
      simp only [List.length_cons]
      omega
    · by_cases hm : markerOf l = plus
      · rw [hunkTake_cons_skip plus l tl hm]
        exact ih h
      · rw [hunkTake_cons_keep plus l tl hm]
        simp only [List.length_cons]
        omega

theorem hunkGive_has_context (plus : Char) :
    ∀ (body : List Line), body.any (fun l => markerOf l == ' ') = true →
      1 ≤ (hunkGive plus body).length := by
  intro body
  induction body with
  | nil => intro h; simp at h
  | cons l tl ih =>
    intro h
    simp only [List.any_cons, Bool.or_eq_true, beq_iff_eq] at h
    rcases h with h | h
    · rw [hunkGive_cons_keep plus l tl (Or.inr h)]
      simp only [List.length_cons]
      omega
    · by_cases hm : markerOf l = plus ∨ markerOf l = ' '
      · rw [hunkGive_cons_keep plus l tl hm]
        simp only [List.length_cons]
        omega
      · rw [hunkGive_cons_skip plus l tl hm]
        exact ih h

theorem hunksOK_parse (plus : Char) (σ δ : Nat) (rest : List Line) (h : Hunk) (tl : List Hunk)
    (hwf : hunksOK plus σ δ rest (h :: tl) = true) :
    parse_hunk_header h.header = some (h.sb, h.sl, h.db, h.dl) := by
  simp only [hunksOK, Bool.and_eq_true, beq_iff_eq] at hwf
  exact hwf.1.1.1.1.1.1.1.1

theorem streamOf_head (tl : List Hunk) : (streamOf tl).head? = streamHead tl := by
  cases tl <;> simp [streamOf, streamHead]

theorem streamOf_tail (tl : List Hunk) : (streamOf tl).tail = streamTail tl := by
  cases tl <;> simp [streamOf, streamTail]

theorem hunk_loop_clean (plus : Char) (hp : plus = '+' ∨ plus = '-') :
    ∀ (hs : List Hunk) (σ δ : Nat) (rest out0 : List Line) (db0 bad0 hc0 : Nat)
      (fl0 : Bool) (dg0 : List Diag),
      hunksOK plus σ δ rest hs = true →
      1 ≤ σ →
      hunk_loop plus false (streamHead hs) (streamTail hs)
          ⟨some rest, out0, σ, δ, db0, bad0, hc0, fl0, dg0⟩ =
        .done ⟨some (restAfter plus σ rest hs), out0 ++ outOf plus σ rest hs,
               sigAfter plus σ hs, delAfter plus δ hs, dbegAfter plus db0 hs,
               bad0, hc0 + hs.length, fl0 || !hs.isEmpty, dg0⟩
          none [] := by
  intro hs
  induction hs with
  | nil =>
    intro σ δ rest out0 db0 bad0 hc0 fl0 dg0 _ _
    simp [streamHead, streamTail, restAfter, outOf, sigAfter, delAfter, dbegAfter,
          hunk_loop_none]
  | cons h tl ih =>
    intro σ δ rest out0 db0 bad0 hc0 fl0 dg0 hwf hσ
    have hwf2 := hwf
    simp only [hunksOK, Bool.and_eq_true, beq_iff_eq, decide_eq_true_eq,
               List.isPrefixOf_iff_prefix] at hwf2
    obtain ⟨⟨⟨⟨⟨⟨⟨⟨hparse, hbok⟩, hctx⟩, hσle⟩, hdbeq⟩, htlen⟩, hglen⟩, hpre⟩, hrec⟩ := hwf2
    have hsw : parse_swapped plus h.header =
        some (hsb plus h, hsl plus h, hdb plus h, hdl plus h) := by
      rcases hp with rfl | rfl <;> simp [parse_swapped, hparse, hsb, hsl, hdb, hdl]
    have hsb1 : hsb plus h ≠ 0 := by omega
    have hdb1 : hdb plus h ≠ 0 := by omega
    have h1t : 1 ≤ (hunkTake plus h.body).length := hunkTake_has_context plus hp h.body hctx
    have hdlen := hpre.length_le
    simp only [List.length_drop] at hdlen
    have hcnt : hsb plus h - σ ≤ rest.length := by omega
    have hafter : streamOf tl = [] ∨ ∃ a as, streamOf tl = a :: as ∧ a ≠ [] ∧
        ¬(a.headD ' ' = '-' ∨ a.headD ' ' = '+' ∨ a.headD ' ' = ' ') := by
      cases tl with
      | nil => exact Or.inl rfl
      | cons h2 tl2 =>
        refine Or.inr ⟨h2.header, h2.body ++ streamOf tl2, rfl, ?_⟩
        exact header_not_marker _ _ (hunksOK_parse plus _ _ _ h2 tl2 hrec)
    have hedit := edit_loop_exact plus hp h.body (streamOf tl)
        (rest.drop (hsb plus h - σ)) (out0 ++ ([] ++ rest.take (hsb plus h - σ)))
        (σ + (hsb plus h - σ)) (δ + (hsb plus h - σ))
        (hsl plus h + (σ + (hsb plus h - σ))) (hdl plus h + (δ + (hsb plus h - σ)))
        hbok hpre (by omega) (by omega) hafter
    have hstep : hunk_step plus false h.header (h.body ++ streamOf tl)
        ⟨some rest, out0, σ, δ, db0, bad0, hc0, fl0, dg0⟩ =
      .next ⟨some (rest.drop ((hsb plus h - σ) + hsl plus h)),
             (out0 ++ rest.take (hsb plus h - σ)) ++ hunkGive plus h.body,
             hsb plus h + hsl plus h, hdb plus h - 1 + hdl plus h,
             hdb plus h, bad0, hc0 + 1, true, dg0⟩
        (streamHead tl) (streamTail tl) := by
      simp only [hunk_step, hsw]
      rw [if_pos ⟨hsb1, hdb1⟩]
      rw [show usub (hsb plus h) σ = hsb plus h - σ from by simp [usub, hσle]]
      rw [copy_lines_exact (hsb plus h - σ) rest [] hcnt]
      simp only [hunk_edit]
      rw [hedit]
      simp only [streamOf_head, streamOf_tail, StepRes.next.injEq, HSt.mk.injEq]
      rw [htlen]
      simp [Nat.add_comm, Nat.add_left_comm, Nat.add_assoc, hdbeq,
            Nat.add_sub_cancel' hσle, List.drop_drop]
    have e1 : hunk_loop plus false (streamHead (h :: tl)) (streamTail (h :: tl))
        ⟨some rest, out0, σ, δ, db0, bad0, hc0, fl0, dg0⟩ =
        hunk_loop plus false (streamHead tl) (streamTail tl)
          ⟨some (rest.drop ((hsb plus h - σ) + hsl plus h)),
           (out0 ++ rest.take (hsb plus h - σ)) ++ hunkGive plus h.body,
           hsb plus h + hsl plus h, hdb plus h - 1 + hdl plus h,
           hdb plus h, bad0, hc0 + 1, true, dg0⟩ := by
      rw [show streamHead (h :: tl) = some h.header from rfl,
          show streamTail (h :: tl) = h.body ++ streamOf tl from rfl,
          hunk_loop_some, hstep]
    have e2 := ih (hsb plus h + hsl plus h) (hdb plus h - 1 + hdl plus h)
        (rest.drop ((hsb plus h - σ) + hsl plus h))
        ((out0 ++ rest.take (hsb plus h - σ)) ++ hunkGive plus h.body)
        (hdb plus h) bad0 (hc0 + 1) true dg0 hrec (by omega)
    rw [e1, e2]
    simp only [restAfter, outOf, sigAfter, delAfter, dbegAfter, List.length_cons,
               List.isEmpty_cons, Bool.not_false, Bool.or_true, Bool.true_or,
               HOut.done.injEq, HSt.mk.injEq, List.append_assoc]
    repeat' apply And.intro
    all_goals first | trivial | omega | simp


theorem hsb_plus (h : Hunk) : hsb '+' h = h.sb := rfl

theorem hsl_plus (h : Hunk) : hsl '+' h = h.sl := rfl

theorem hdb_plus (h : Hunk) : hdb '+' h = h.db := rfl

theorem hdl_plus (h : Hunk) : hdl '+' h = h.dl := rfl

theorem hsb_minus (h : Hunk) : hsb '-' h = h.db := by simp [hsb]

theorem hsl_minus (h : Hunk) : hsl '-' h = h.dl := by simp [hsl]

theorem hdb_minus (h : Hunk) : hdb '-' h = h.sb := by simp [hdb]

theorem hdl_minus (h : Hunk) : hdl '-' h = h.sl := by simp [hdl]

theorem hunk_swap (body : List Line) (hb : bodyOK body = true) :
    hunkTake '-' body = hunkGive '+' body ∧ hunkGive '-' body = hunkTake '+' body := by
  induction body with
  | nil => simp [hunkTake, hunkGive]
  | cons l tl ih =>
    have hbody2 : (!l.isEmpty &&
        (markerOf l == '-' || markerOf l == '+' || markerOf l == ' ')) = true ∧
        bodyOK tl = true := by
      simpa [bodyOK, List.all_cons] using hb
    obtain ⟨hhead, htl⟩ := hbody2
    simp only [Bool.and_eq_true, Bool.not_eq_true', Bool.or_eq_true, beq_iff_eq] at hhead
    obtain ⟨hlE, hm⟩ := hhead
    obtain ⟨ht, hg⟩ := ih htl
    rcases hm with (hm | hm) | hm
    · constructor
      · rw [hunkTake_cons_skip '-' l tl hm, hunkGive_cons_skip '+' l tl (by simp [hm]), ht]
      · rw [hunkGive_cons_keep '-' l tl (Or.inl hm),
            hunkTake_cons_keep '+' l tl (by simp [hm]), hg]
    · constructor
      · rw [hunkTake_cons_keep '-' l tl (by simp [hm]),
            hunkGive_cons_keep '+' l tl (Or.inl hm), ht]
      · rw [hunkGive_cons_skip '-' l tl (by simp [hm]), hunkTake_cons_skip '+' l tl hm, hg]
    · constructor
      · rw [hunkTake_cons_keep '-' l tl (by simp [hm]),
            hunkGive_cons_keep '+' l tl (Or.inr hm), ht]
      · rw [hunkGive_cons_keep '-' l tl (Or.inr hm),
            hunkTake_cons_keep '+' l tl (by simp [hm]), hg]

theorem restAfter_length_le (plus : Char) :
    ∀ (hs : List Hunk) (σ : Nat) (rest : List Line),
      (restAfter plus σ rest hs).length ≤ rest.length := by
  intro hs
  induction hs with
  | nil => intro σ rest; simp [restAfter]
  | cons h tl ih =>
    intro σ rest
    simp only [restAfter]
    exact Nat.le_trans (ih _ _) (by simp only [List.length_drop]; omega)

theorem delAfter_pos (plus : Char) :
    ∀ (hs : List Hunk) (σ δ : Nat) (rest : List Line),
      hunksOK plus σ δ rest hs = true → hs ≠ [] → 1 ≤ delAfter plus δ hs := by
  intro hs
  induction hs with
  | nil => intro σ δ rest _ hne; exact absurd rfl hne
  | cons h tl ih =>
    intro σ δ rest hwf hne
    have hwf2 := hwf
    simp only [hunksOK, Bool.and_eq_true, beq_iff_eq, decide_eq_true_eq,
               List.isPrefixOf_iff_prefix] at hwf2
    obtain ⟨⟨⟨⟨⟨⟨⟨⟨hparse, hbok⟩, hctx⟩, hσle⟩, hdbeq⟩, htlen⟩, hglen⟩, hpre⟩, hrec⟩ := hwf2
    simp only [delAfter]
    cases tl with
    | nil =>
      simp only [delAfter]
      have hg1 := hunkGive_has_context plus h.body hctx
      omega
    | cons h2 tl2 =>
      exact ih _ _ _ hrec (by simp)

theorem dbegAfter_pos (plus : Char) :
    ∀ (hs : List Hunk) (σ δ : Nat) (rest : List Line) (d0 : Nat),
      hunksOK plus σ δ rest hs = true → hs ≠ [] → 1 ≤ dbegAfter plus d0 hs := by
  intro hs
  induction hs with
  | nil => intro σ δ rest d0 _ hne; exact absurd rfl hne
  | cons h tl ih =>
    intro σ δ rest d0 hwf hne
    have hwf2 := hwf
    simp only [hunksOK, Bool.and_eq_true, beq_iff_eq, decide_eq_true_eq,
               List.isPrefixOf_iff_prefix] at hwf2
    obtain ⟨⟨⟨⟨⟨⟨⟨⟨hparse, hbok⟩, hctx⟩, hσle⟩, hdbeq⟩, htlen⟩, hglen⟩, hpre⟩, hrec⟩ := hwf2
    simp only [dbegAfter]
    cases tl with
    | nil =>
      simp only [dbegAfter]
      omega
    | cons h2 tl2 =>
      exact ih _ _ _ _ hrec (by simp)


theorem take_append_len (a b : List Line) (kk : Nat) (h : a.length = kk) :
    (a ++ b).take kk = a := by
  subst h
  exact List.take_left a b

theorem drop_append_len (a b : List Line) (kk : Nat) (h : a.length = kk) :
    (a ++ b).drop kk = b := by
  subst h
  exact List.drop_left a b

theorem drop_append_len_add (a b : List Line) (kk m : Nat) (h : a.length = kk) :
    (a ++ b).drop (kk + m) = b.drop m := by
  subst h
  induction a with
  | nil => simp
  | cons x xs ih =>
    simp only [List.cons_append, List.length_cons]
    rw [show xs.length + 1 + m = (xs.length + m) + 1 from by omega]
    simpa using ih

theorem hunksOK_reverse :
    ∀ (hs : List Hunk) (σ δ : Nat) (rest : List Line),
      hunksOK '+' σ δ rest hs = true → 1 ≤ σ →
      hunksOK '-' (δ + 1) (σ - 1)
        (outOf '+' σ rest hs ++ restAfter '+' σ rest hs) hs = true := by
  intro hs
  induction hs with
  | nil => intro σ δ rest _ _; simp [hunksOK]
  | cons h tl ih =>
    intro σ δ rest hwf hσ
    have hwf2 := hwf
    simp only [hunksOK, Bool.and_eq_true, beq_iff_eq, decide_eq_true_eq,
               List.isPrefixOf_iff_prefix, hsb_plus, hsl_plus, hdb_plus, hdl_plus] at hwf2
    obtain ⟨⟨⟨⟨⟨⟨⟨⟨hparse, hbok⟩, hctx⟩, hσle⟩, hdbeq⟩, htlen⟩, hglen⟩, hpre⟩, hrec⟩ := hwf2
    have hsw := hunk_swap h.body hbok
    have h1t : 1 ≤ (hunkTake '+' h.body).length :=
      hunkTake_has_context '+' (Or.inl rfl) h.body hctx
    have hdlen := hpre.length_le
    simp only [List.length_drop] at hdlen
    have hcnt : h.sb - σ ≤ rest.length := by omega
    have htk : (rest.take (h.sb - σ)).length = h.sb - σ := by
      simp only [List.length_take]
      omega
    simp only [outOf, restAfter, hsb_plus, hsl_plus, List.append_assoc]
    simp only [hunksOK, Bool.and_eq_true, beq_iff_eq, decide_eq_true_eq,
               List.isPrefixOf_iff_prefix, hsb_minus, hsl_minus, hdb_minus, hdl_minus]
    have hk2 : h.db - (δ + 1) = h.sb - σ := by omega
    refine ⟨⟨⟨⟨⟨⟨⟨⟨hparse, hbok⟩, hctx⟩, by omega⟩, by omega⟩, ?_⟩, ?_⟩, ?_⟩, ?_⟩
    · rw [hsw.1]
      exact hglen
    · rw [hsw.2]
      exact htlen
    · rw [hk2, hsw.1, drop_append_len _ _ _ htk]
      exact List.prefix_append _ _
    · rw [hk2, drop_append_len_add _ _ _ _ htk, drop_append_len _ _ _ hglen]
      rw [show h.db + h.dl = (h.db - 1 + h.dl) + 1 from by omega,
          show h.sb - 1 + h.sl = h.sb + h.sl - 1 from by omega]
      exact ih (h.sb + h.sl) (h.db - 1 + h.dl) (rest.drop ((h.sb - σ) + h.sl)) hrec (by omega)

theorem reverse_restores :
    ∀ (hs : List Hunk) (σ δ : Nat) (rest : List Line),
      hunksOK '+' σ δ rest hs = true → 1 ≤ σ →
      outOf '-' (δ + 1) (outOf '+' σ rest hs ++ restAfter '+' σ rest hs) hs ++
        restAfter '-' (δ + 1) (outOf '+' σ rest hs ++ restAfter '+' σ rest hs) hs = rest := by
  intro hs
  induction hs with
  | nil => intro σ δ rest _ _; simp [outOf, restAfter]
  | cons h tl ih =>
    intro σ δ rest hwf hσ
    have hwf2 := hwf
    simp only [hunksOK, Bool.and_eq_true, beq_iff_eq, decide_eq_true_eq,
               List.isPrefixOf_iff_prefix, hsb_plus, hsl_plus, hdb_plus, hdl_plus] at hwf2
    obtain ⟨⟨⟨⟨⟨⟨⟨⟨hparse, hbok⟩, hctx⟩, hσle⟩, hdbeq⟩, htlen⟩, hglen⟩, hpre⟩, hrec⟩ := hwf2
    have hsw := hunk_swap h.body hbok
    have h1t : 1 ≤ (hunkTake '+' h.body).length :=
      hunkTake_has_context '+' (Or.inl rfl) h.body hctx
    have hdlen := hpre.length_le
    simp only [List.length_drop] at hdlen
    have hcnt : h.sb - σ ≤ rest.length := by omega
    have htk : (rest.take (h.sb - σ)).length = h.sb - σ := by
      simp only [List.length_take]
      omega
    have hk2 : h.db - (δ + 1) = h.sb - σ := by omega
    have hGeq : outOf '+' σ rest (h :: tl) ++ restAfter '+' σ rest (h :: tl) =
        rest.take (h.sb - σ) ++ (hunkGive '+' h.body ++
          (outOf '+' (h.sb + h.sl) (rest.drop ((h.sb - σ) + h.sl)) tl ++
           restAfter '+' (h.sb + h.sl) (rest.drop ((h.sb - σ) + h.sl)) tl)) := by
      simp only [outOf, restAfter, hsb_plus, hsl_plus, List.append_assoc]
    rw [hGeq]
    simp only [outOf, restAfter, hsb_minus, hsl_minus, hdb_minus, hdl_minus]
    rw [hk2, take_append_len _ _ _ htk, drop_append_len_add _ _ _ _ htk,
        drop_append_len _ _ _ hglen, hsw.2]
    rw [show h.db + h.dl = (h.db - 1 + h.dl) + 1 from by omega]
    have hihr := ih (h.sb + h.sl) (h.db - 1 + h.dl) (rest.drop ((h.sb - σ) + h.sl)) hrec
      (by omega)
    simp only [List.append_assoc]
    rw [hihr]
    obtain ⟨t, ht⟩ := hpre
    have ht2 : rest.drop ((h.sb - σ) + h.sl) = t := by
      have h3 := congrArg (List.drop (hunkTake '+' h.body).length) ht
      rw [drop_append_len _ _ _ rfl] at h3
      rw [List.drop_drop] at h3
      rw [htlen] at h3
      exact h3.symm
    rw [ht2, ht]
    exact List.take_append_drop _ rest


theorem cutAt_all : ∀ (l : Line),
    l.all (fun c => !(c == '\t' || c == '\n' || c == '\r')) = true → cutAt l = l := by
  intro l
  induction l with
  | nil => intro _; rfl
  | cons c cs ih =>
    intro h
    simp only [List.all_cons, Bool.and_eq_true] at h
    have ih2 := ih h.2
    simp only [cutAt] at ih2 ⊢
    rw [List.takeWhile_cons, if_pos h.1, ih2]

theorem extract_marker_exact (p4 n : Line) (h4 : p4.length = 4)
    (hp4 : p4.all (fun c => !(c == '\t' || c == '\n' || c == '\r')) = true)
    (hn : n.all (fun c => !(c == '\t' || c == '\n' || c == '\r')) = true) :
    extract_filename (p4 ++ n) 0 p4 = some n := by
  have hall : (p4 ++ n).all (fun c => !(c == '\t' || c == '\n' || c == '\r')) = true := by
    rw [List.all_append, hp4, hn]
    rfl
  simp only [extract_filename]
  rw [if_pos (by rw [← h4, List.take_left, List.take_length])]
  rw [cutAt_all _ hall, ← h4, List.drop_left, dropDirs_zero]

set_option maxHeartbeats 1000000 in
theorem patch_run_clean (o : Opts) (hdry : o.dryRun = false) (hN : o.optN = false)
    (hlvl : o.level = 0) (n : Line) (F : List Line) (hs : List Hunk)
    (hn : n.all (fun c => !(c == '\t' || c == '\n' || c == '\r')) = true)
    (hne : hs ≠ [])
    (hwf : hunksOK o.plus 1 0 F hs = true)
    (hF : F.length ≤ 4294967295) :
    patch_run o ⟨[(n, F)], []⟩ (patchOf n hs) =
      .ok ⟨[(n, outOf o.plus 1 F hs ++ restAfter o.plus 1 F hs)], []⟩ 0 [.patching n] := by
  obtain ⟨h1, tl, rfl⟩ : ∃ h1 tl, hs = h1 :: tl := by
    cases hs with
    | nil => exact absurd rfl hne
    | cons a b => exact ⟨a, b, rfl⟩
  have hplus : o.plus = '+' ∨ o.plus = '-' := by
    cases hr : o.reverse <;> simp [Opts.plus, hr]
  have hbn : n ++ str ".orig" ≠ n := append_ne_self n (str ".orig") (by decide)
  have hnb : n ≠ n ++ str ".orig" := fun he => hbn he.symm
  have hloop := hunk_loop_clean o.plus hplus (h1 :: tl) 1 0 F [] 1 0 0 false
    ([] ++ [Diag.patching n]) hwf (Nat.le_refl 1)
  rw [show streamHead (h1 :: tl) = some h1.header from rfl,
      show streamTail (h1 :: tl) = h1.body ++ streamOf tl from rfl] at hloop
  have hdc := delAfter_pos o.plus (h1 :: tl) 1 0 F hwf (by simp)
  have hdb2 := dbegAfter_pos o.plus (h1 :: tl) 1 0 F 1 hwf (by simp)
  have hflush := copy_lines_all (restAfter o.plus 1 F (h1 :: tl)) [] 4294967295
    (Nat.le_trans (restAfter_length_le o.plus (h1 :: tl) 1 F) hF)
  have hsec : sec_core o ⟨[(n ++ str ".orig", F)], []⟩ n (some F) (some (n ++ str ".orig"))
      (some h1.header) (h1.body ++ streamOf tl) ([] ++ [Diag.patching n]) =
      .ok ⟨[(n, outOf o.plus 1 F (h1 :: tl) ++ restAfter o.plus 1 F (h1 :: tl))], []⟩ 0
        ([] ++ [Diag.patching n]) none [] := by
    simp only [sec_core, hN]
    rw [hloop]
    simp only [List.isEmpty_cons, Bool.not_false, Bool.or_true, if_true]
    rw [hflush]
    have hdc0 : delAfter o.plus 0 (h1 :: tl) ≠ 0 := by omega
    have hdb0 : dbegAfter o.plus 1 (h1 :: tl) ≠ 0 := by omega
    simp [finalize, hdry, hdc0, hdb0, aset, aremove, hbn, hnb]
  have hproc : process_section o ⟨[(n, F)], []⟩ n (some h1.header)
      (h1.body ++ streamOf tl) [] =
      .ok ⟨[(n, outOf o.plus 1 F (h1 :: tl) ++ restAfter o.plus 1 F (h1 :: tl))], []⟩ 0
        ([] ++ [Diag.patching n]) none [] := by
    simp only [process_section]
    rw [show alookup [(n, F)] n = some F from by simp [alookup]]
    simp only [hdry, Bool.false_eq_true, if_false]
    rw [show aset (aremove [(n, F)] n) (n ++ str ".orig") F = [(n ++ str ".orig", F)] from by
      simp [aset, aremove]]
    exact hsec
  have hex1 : extract_filename (str "--- " ++ n) o.level (str "--- ") = some n := by
    rw [hlvl]
    exact extract_marker_exact _ _ rfl (by decide) hn
  have hex2 : extract_filename (str "+++ " ++ n) o.level (str "+++ ") = some n := by
    rw [hlvl]
    exact extract_marker_exact _ _ rfl (by decide) hn
  have hstep : run_step o (str "--- " ++ n)
      ((str "+++ " ++ n) :: (h1.header :: (h1.body ++ streamOf tl))) ⟨[(n, F)], []⟩ 0 [] =
      .inr (none, [],
            ⟨[(n, outOf o.plus 1 F (h1 :: tl) ++ restAfter o.plus 1 F (h1 :: tl))], []⟩,
            0, [Diag.patching n]) := by
    simp only [run_step, scan]
    rw [hex1]
    simp [hex2, hproc]
  rw [show patchOf n (h1 :: tl) = (str "--- " ++ n) :: (str "+++ " ++ n) ::
      (h1.header :: (h1.body ++ streamOf tl)) from rfl]
  simp only [patch_run]
  rw [run_loop_some, hstep]
  exact run_loop_none o [] _ 0 [Diag.patching n]


/-- Forward, non-dry options at strip level 0. -/
def optsFwd0 : Opts := ⟨false, false, false, 0⟩

/-- Reverse (`-R`), non-dry options at strip level 0. -/
def optsRev0 : Opts := ⟨true, false, false, 0⟩

/-- The Scenario A hunk as a structured hunk (used to witness the roundtrip). -/
def hunksA : List Hunk :=
  [⟨str "@@ -1,2 +1,2 @@", 1, 2, 1, 2, [str "-foo", str "+bar", str " baz"]⟩]

/-- A four-line file for the roundtrip counterexample. -/
def fsR : FS := ⟨[(str "f", [str "a", str "b", str "x", str "c"])], []⟩

/-- A single-hunk section whose header's destination start (2) is inconsistent
with its source start (3): the forward application is clean, but reversing it
does not restore the original file. -/
def patchR : List Line :=
  [str "--- a/f", str "+++ b/f", str "@@ -3,1 +2,1 @@", str "-x"]

/-! ## Claim theorems -/

/-- C9: in a non-dry run, a file section that finishes with zero failed hunks
deletes the target not only when no output line was counted
(`dst_cur_line = 0`) but exactly when the disjunction
`dst_cur_line = 0 ∨ dst_beg_line = 0` holds, `dst_beg_line` being the
(post-swap) destination start of the most recently parsed hunk header — so a
final hunk header with destination start 0 deletes the target even though
output lines were written; otherwise the target holds exactly the written
lines. -/
theorem empty_output_deletion_condition (o : Opts) (fs : FS) (name : Line)
    (backup : Option Line) (st : HSt) (outAll : List Line)
    (hdry : o.dryRun = false) (hbad : st.bad = 0)
    (hb : ∀ b, backup = some b → b ≠ name) :
    ((st.dstCur = 0 ∨ st.dstBeg = 0) →
        alookup (finalize o fs name backup st outAll).files name = none) ∧
    (¬(st.dstCur = 0 ∨ st.dstBeg = 0) →
        alookup (finalize o fs name backup st outAll).files name = some outAll) := by
  constructor
  · intro hcond
    cases backup with
    | none =>
      rcases hcond with hc | hc <;>
        simp [finalize, hdry, hbad, hc, alookup_aremove_self]
    | some b =>
      rcases hcond with hc | hc <;>
        simp [finalize, hdry, hbad, hc, alookup_aremove_self]
  · intro hcond
    push_neg at hcond
    obtain ⟨h1, h2⟩ := hcond
    cases backup with
    | none => simp [finalize, hdry, hbad, h1, h2, alookup_aset_self]
    | some b =>
      have hbn : name ≠ b := fun he => (hb b rfl) he.symm
      simp [finalize, hdry, hbad, h1, h2, alookup_aremove_ne _ _ _ hbn, alookup_aset_self]

theorem empty_output_deletion_condition_witness :
    alookup (finalize optsFwd ⟨[(str "f", [str "old"])], []⟩ (str "f")
      (some (str "f" ++ str ".orig"))
      ⟨none, [str "k"], 1, 3, 0, 0, 2, true, []⟩ [str "k"]).files (str "f") = none :=
  (empty_output_deletion_condition optsFwd ⟨[(str "f", [str "old"])], []⟩ (str "f")
    (some (str "f" ++ str ".orig")) ⟨none, [str "k"], 1, 3, 0, 0, 2, true, []⟩ [str "k"]
    rfl rfl
    (fun b hb => by cases hb; exact append_ne_self _ _ (by decide))).1
    (Or.inr rfl)

/-- C5 counterexample: at strip level -1 the extractor does not return the
path unchanged; the decrement-then-test loop strips all leading directories,
so `--- a/b/c` yields `c`, not `a/b/c`. -/
theorem strip_negative_level_cex :
    extract_filename (str "--- a/b/c") (-1) (str "--- ") = some (str "c") ∧
      some (str "c") ≠ some (str "a/b/c") := by
  constructor
  · simp [extract_filename, cutAt, str, dropDirs_eq, afterSlash]
  · decide

/-- C5 (amended): in filename extraction over a path of '/'-free segments,
strip level 0 drops no segments, a positive strip level L drops exactly
min(L, number of droppable leading segments) segments, and a negative strip
level drops all droppable leading segments (not none, as the claim stated). -/
theorem strip_level_semantics (segs : List Line) (lvl : Int)
    (hne : segs ≠ []) (hfree : ∀ s ∈ segs, ('/' : Char) ∉ s) :
    (lvl = 0 → dropDirs (joinSegs segs) lvl = joinSegs segs) ∧
    (0 < lvl → dropDirs (joinSegs segs) lvl =
      joinSegs (segs.drop (min lvl.toNat (segs.length - 1)))) ∧
    (lvl < 0 → dropDirs (joinSegs segs) lvl = joinSegs (segs.drop (segs.length - 1))) :=
  ⟨fun h0 => by rw [h0, dropDirs_zero],
   fun hp => dropDirs_pos segs hne hfree lvl hp,
   fun hn => dropDirs_neg segs hne hfree lvl hn⟩

theorem strip_level_semantics_witness :
    dropDirs (joinSegs [str "a", str "b", str "c"]) 2 = joinSegs [str "c"] ∧
      dropDirs (joinSegs [str "a", str "b", str "c"]) (-7) = joinSegs [str "c"] := by
  constructor
  · exact ((strip_level_semantics [str "a", str "b", str "c"] 2 (by decide)
      (by decide)).2.1 (by decide)).trans (by decide)
  · exact ((strip_level_semantics [str "a", str "b", str "c"] (-7) (by decide)
      (by decide)).2.2 (by decide)).trans (by decide)

/-- C3: with the absolute bounds captured as the code captures them
(`srcLast = srcCount + srcCur`, `dstLast = dstCount + dstCur`, after any
reverse swap), a hunk's edit loop consumes at most `srcCount` source lines and
writes at most `dstCount` destination lines, whatever the hunk body contains:
the cursors only grow, stay within the captured bounds, the output grows by
exactly the destination-cursor increase and the source stream advances in
lockstep with the source cursor. -/
theorem edit_loop_respects_declared_counts (plus : Char) (optN : Bool)
    (srcCount dstCount : Nat) (p : List Line) (st : EditSt) (l : List Line)
    (hsrc : st.src = some l) :
    (edit_loop plus optN (srcCount + st.srcCur) (dstCount + st.dstCur) p st).2.2.1.srcCur
        ≤ st.srcCur + srcCount ∧
    (edit_loop plus optN (srcCount + st.srcCur) (dstCount + st.dstCur) p st).2.2.1.dstCur
        ≤ st.dstCur + dstCount ∧
    (∃ extra,
      (edit_loop plus optN (srcCount + st.srcCur) (dstCount + st.dstCur) p st).2.2.1.out
          = st.out ++ extra ∧
      extra.length + st.dstCur =
        (edit_loop plus optN (srcCount + st.srcCur) (dstCount + st.dstCur) p st).2.2.1.dstCur) ∧
    (∃ pre l2, l = pre ++ l2 ∧
      (edit_loop plus optN (srcCount + st.srcCur) (dstCount + st.dstCur) p st).2.2.1.src
          = some l2 ∧
      pre.length ≤ srcCount) := by
  obtain ⟨a1, a2, a3, a4, hout, hsrc2⟩ :=
    edit_loop_reach plus optN (srcCount + st.srcCur) (dstCount + st.dstCur) p st
  obtain ⟨pre, l2, hsplit, hsome, hlen⟩ := hsrc2 l hsrc
  refine ⟨by omega, by omega, hout, pre, l2, hsplit, hsome, ?_⟩
  have := a2 (by omega)
  omega

theorem edit_loop_respects_declared_counts_witness :
    (edit_loop '+' false (1 + 1) (1 + 0) [str " a", str " a", str " a"]
        ⟨some [str "a", str "a", str "a"], [], 1, 0⟩).2.2.1.srcCur ≤ 1 + 1 ∧
    (edit_loop '+' false (1 + 1) (1 + 0) [str " a", str " a", str " a"]
        ⟨some [str "a", str "a", str "a"], [], 1, 0⟩).2.2.1.dstCur ≤ 0 + 1 := by
  have h := edit_loop_respects_declared_counts '+' false 1 1
    [str " a", str " a", str " a"] ⟨some [str "a", str "a", str "a"], [], 1, 0⟩
    [str "a", str "a", str "a"] rfl
  exact ⟨h.1, h.2.1⟩

/-- C10: under the skip-already-applied flag `-N`, a context or removal patch
line whose payload mismatches the next source line still consumes that source
line: the source stream and cursor advance past the compared line, no output
line is written for the skipped edit, and the loop continues with the rest of
the hunk, so subsequent comparisons read strictly later source lines. -/
theorem skipN_mismatch_consumes_source (plus : Char) (srcLast dstLast : Nat)
    (c : Char) (lrest : Line) (rest : List Line) (st : EditSt) (s : Line) (ss : List Line)
    (hc : c = '-' ∨ c = '+' ∨ c = ' ')
    (hcp : c ≠ plus)
    (hbound : st.srcCur ≠ srcLast)
    (hsrc : st.src = some (s :: ss))
    (hmm : s ≠ lrest) :
    edit_loop plus true srcLast dstLast ((c :: lrest) :: rest) st =
      edit_loop plus true srcLast dstLast rest
        { st with src := some ss, srcCur := st.srcCur + 1 } := by
  rcases hc with h | h | h <;> subst h <;>
    simp [edit_loop, hsrc, hbound, hcp, hmm]

theorem skipN_mismatch_consumes_source_witness :
    edit_loop '+' true 3 3 [str " x"] ⟨some [str "y", str "z"], [], 1, 0⟩ =
      edit_loop '+' true 3 3 [] ⟨some [str "z"], [], 2, 0⟩ :=
  skipN_mismatch_consumes_source '+' 3 3 ' ' (str "x") []
    ⟨some [str "y", str "z"], [], 1, 0⟩ (str "y") [str "z"]
    (Or.inr (Or.inr rfl)) (by decide) (by decide) rfl (by decide)

/-- C8: a blank line in the patch stream during the edit loop is treated as
the single-space context line: processing the empty line is identical to
processing the line consisting of one space, and (when the bounds are not yet
reached and the next source line is blank) it consumes and matches that one
source line and writes one (empty) line to the destination rather than ending
the hunk. -/
theorem blank_line_is_context (plus : Char) (optN : Bool) (sL dL : Nat)
    (rest : List Line) (st : EditSt) (ss : List Line)
    (hplus : plus = '+' ∨ plus = '-')
    (hsb : st.srcCur ≠ sL) (hdb : st.dstCur ≠ dL)
    (hsrc : st.src = some ([] :: ss)) :
    (∀ (rest2 : List Line) (st2 : EditSt),
      edit_loop plus optN sL dL ([] :: rest2) st2 =
        edit_loop plus optN sL dL ([' '] :: rest2) st2) ∧
    edit_loop plus optN sL dL ([] :: rest) st =
      edit_loop plus optN sL dL rest
        { st with src := some ss, out := st.out ++ [[]],
                  srcCur := st.srcCur + 1, dstCur := st.dstCur + 1 } := by
  constructor
  · intro rest2 st2
    simp [edit_loop]
  · rcases hplus with h | h <;> subst h <;>
      simp [edit_loop, hsrc, hsb, hdb]

theorem blank_line_is_context_witness :
    edit_loop '+' false 3 3 [[]] ⟨some [[], str "z"], [], 1, 0⟩ =
      edit_loop '+' false 3 3 [] ⟨some [str "z"], [[]], 2, 1⟩ :=
  (blank_line_is_context '+' false 3 3 [] ⟨some [[], str "z"], [], 1, 0⟩ [str "z"]
    (Or.inl rfl) (by decide) (by decide) rfl).2

set_option maxHeartbeats 4000000 in
/-- C6: exit-status and retention semantics.  A fatal abort exits with
status 2 (shown in general on the fatal result, and concretely for the
"invalid patch" marker error and for the "bad src file" short-source error); a
run that completes exits 1 exactly when some file section reported failed
hunks (a `hunksFailed` summary diagnostic was emitted) and 0 exactly when
none did; and a non-dry section on an existing file that ends with failed
hunks leaves both the backup `<target>.orig` with the original content and the
target with the partially written destination content. -/
theorem exit_status_and_failure_retention :
    (∀ (fs : FS) (d : List Diag), exitCode (.fatal fs d) = 2) ∧
    (∀ (o : Opts) (fs : FS) (patch : List Line) (fs2 : FS) (r2 : Nat) (d2 : List Diag),
        patch_run o fs patch = .ok fs2 r2 d2 →
        (r2 = 0 ∨ r2 = 1) ∧
        (r2 = 1 ↔ ∃ b t, Diag.hunksFailed b t ∈ d2) ∧
        (r2 = 0 ↔ ¬∃ b t, Diag.hunksFailed b t ∈ d2)) ∧
    (∀ (o : Opts) (fs : FS) (name : Line) (content : List Line) (cur0 : Option Line)
        (rest0 : List Line) (diags0 : List Diag) (fs2 : FS) (bad : Nat) (d2 : List Diag)
        (c2 : Option Line) (r2 : List Line),
        o.dryRun = false →
        alookup fs.files name = some content →
        process_section o fs name cur0 rest0 diags0 = .ok fs2 bad d2 c2 r2 →
        bad ≠ 0 →
        alookup fs2.files (name ++ str ".orig") = some content ∧
        ∃ out, alookup fs2.files name = some out) ∧
    exitCode (patch_run optsFwd fsA [str "--- a/f", str "oops"]) = 2 ∧
    exitCode (patch_run optsFwd ⟨[(str "f", [str "a"])], []⟩
      [str "--- a/f", str "+++ b/f", str "@@ -5,1 +5,1 @@", str " x"]) = 2 := by
  refine ⟨fun fs d => rfl, ?_, ?_, ?_, ?_⟩
  · intro o fs patch fs2 r2 d2 h
    have hmain : ∃ dNew, d2 = [] ++ dNew ∧
        (r2 = 1 ↔ ((0 : Nat) = 1 ∨ ∃ b t, Diag.hunksFailed b t ∈ dNew)) ∧
        (r2 = 0 ∨ r2 = 1) := by
      cases patch with
      | nil =>
        simp only [patch_run] at h
        cases h
        exact ⟨[], by simp, by simp, Or.inl rfl⟩
      | cons c rest =>
        simp only [patch_run] at h
        exact run_loop_ret_aux o (rest.length + muOpt (some c)) (some c) rest fs 0 []
          fs2 r2 d2 (Nat.le_refl _) (Or.inl rfl) h
    obtain ⟨dNew, hd, hiff, hrange⟩ := hmain
    simp only [List.nil_append] at hd
    subst hd
    have hx : r2 = 1 ↔ ∃ b t, Diag.hunksFailed b t ∈ d2 := by
      rw [hiff]
      simp
    refine ⟨hrange, hx, ?_, ?_⟩
    · intro h0 hc
      have h1 := hx.mpr hc
      omega
    · intro hc
      rcases hrange with h1 | h1
      · exact h1
      · exact absurd (hx.mp h1) hc
  · intro o fs name content cur0 rest0 diags0 fs2 bad d2 c2 r2 hdry hlook hsec hbad
    simp only [process_section, hlook, hdry, Bool.false_eq_true, if_false] at hsec
    obtain ⟨outAll, hfs⟩ := sec_core_bad_files _ _ _ _ _ _ _ _ _ _ _ _ _ hdry hsec hbad
    have hne : name ++ str ".orig" ≠ name := append_ne_self _ _ (by decide)
    constructor
    · rw [hfs, alookup_aset_ne _ _ _ _ hne]
      exact alookup_aset_self _ _ _
    · exact ⟨outAll, by rw [hfs]; exact alookup_aset_self _ _ _⟩
  · simp [exitCode, patch_run, run_loop_none, run_loop_some, run_step, scan,
          extract_filename, cutAt, dropDirs_eq, afterSlash, process_section, sec_core,
          hunk_loop_none, hunk_loop_some, hunk_step, parse_swapped, parse_hunk_header,
          parseForm1, parseForm2, scanNat, skipWS, lit, digitsVal, isSpaceC, isDigitC,
          edit_loop, copy_lines, finalize, alookup, aset, aremove, dirOf, hunk_edit,
          usub, muOpt, str, Opts.plus, optsFwd, fsA]
  · simp [exitCode, patch_run, run_loop_none, run_loop_some, run_step, scan,
          extract_filename, cutAt, dropDirs_eq, afterSlash, process_section, sec_core,
          hunk_loop_none, hunk_loop_some, hunk_step, parse_swapped, parse_hunk_header,
          parseForm1, parseForm2, scanNat, skipWS, lit, digitsVal, isSpaceC, isDigitC,
          edit_loop, copy_lines, finalize, alookup, aset, aremove, dirOf, hunk_edit,
          usub, muOpt, str, Opts.plus, optsFwd]

theorem exit_status_and_failure_retention_witness :
    ((0 : Nat) = 0 ∨ (0 : Nat) = 1) ∧
    ((0 : Nat) = 1 ↔ ∃ b t, Diag.hunksFailed b t ∈ ([] : List Diag)) ∧
    ((0 : Nat) = 0 ↔ ¬∃ b t, Diag.hunksFailed b t ∈ ([] : List Diag)) :=
  exit_status_and_failure_retention.2.1 optsFwd ⟨[], []⟩ [] ⟨[], []⟩ 0 [] rfl

set_option maxHeartbeats 4000000 in
/-- C1 counterexample: in a file section with two hunks whose first hunk
mismatches, the second hunk header (which parses, and whose edit would apply
cleanly to the file) is never parsed as a hunk: the run reports "1 out of 1
hunk FAILED" for the section and the second hunk's edit (`aaa` to `bbb`) is
not applied to the destination. -/
theorem hunk_mismatch_skips_rest_of_section_cex :
    patch_run optsFwd fsC1 patchC1 =
      .ok ⟨[(str "f", [str "mid", str "aaa", str "tail"]),
            (str "f" ++ str ".orig", [str "qux", str "mid", str "aaa", str "tail"])], []⟩ 1
        [.patching (str "f"), .hunkFailed 1 1, .hunksFailed 1 1] ∧
    (parse_hunk_header (str "@@ -3,1 +3,1 @@")).isSome = true := by
  constructor
  · simp [patch_run, run_loop_none, run_loop_some, run_step, scan, extract_filename, cutAt,
          dropDirs_eq, afterSlash, process_section, sec_core, hunk_loop_none, hunk_loop_some,
          hunk_step, parse_swapped, parse_hunk_header, parseForm1, parseForm2, scanNat,
          skipWS, lit, digitsVal, isSpaceC, isDigitC, edit_loop, copy_lines, finalize,
          alookup, aset, aremove, dirOf, hunk_edit, usub, muOpt, str, Opts.plus,
          optsFwd, patchC1, fsC1]
  · decide

set_option maxHeartbeats 4000000 in
/-- C1 (amended): after a hunk mismatch is recorded (failed-hunk counter and
"hunk FAILED" diagnostic), the rest of that hunk's edit loop is abandoned,
and — because the line in hand at the failure starts with '-', '+' or ' ' and
so never parses as a hunk header — hunk processing for that file section ends
as well: later hunks of the same section are not applied.  The run is not
aborted: the remaining lines are scanned for the next file-section marker and
later file sections are still processed (here the second section still patches
`g` while the run exits with status 1). -/
theorem hunk_mismatch_records_and_ends_section :
    (∀ (plus : Char) (optN : Bool) (sL dL : Nat) (p : List Line) (st : EditSt) (l : Line),
        (edit_loop plus optN sL dL p st).2.2.2 = true →
        (edit_loop plus optN sL dL p st).2.1 = some l →
        parse_hunk_header l = none) ∧
    (∀ (plus : Char) (optN : Bool) (l : Line) (rest : List Line) (st : HSt),
        parse_hunk_header l = none →
        hunk_loop plus optN (some l) rest st = .done st (some l) rest) ∧
    patch_run optsFwd fsTwo patchTwo =
      .ok ⟨[(str "g", [str "new"]), (str "f", []),
            (str "f" ++ str ".orig", [str "qux"])], []⟩ 1
        [.patching (str "f"), .hunkFailed 1 1, .hunksFailed 1 1,
         .patching (str "g")] := by
  refine ⟨fun plus optN sL dL p st l h1 h2 => edit_loop_fail_line plus optN sL dL p st h1 l h2,
    fun plus optN l rest st h => hunk_loop_stops_on_non_header plus optN l rest st h, ?_⟩
  simp [patch_run, run_loop_none, run_loop_some, run_step, scan, extract_filename, cutAt,
        dropDirs_eq, afterSlash, process_section, sec_core, hunk_loop_none, hunk_loop_some,
        hunk_step, parse_swapped, parse_hunk_header, parseForm1, parseForm2, scanNat,
        skipWS, lit, digitsVal, isSpaceC, isDigitC, edit_loop, copy_lines, finalize,
        alookup, aset, aremove, dirOf, hunk_edit, usub, muOpt, str, Opts.plus,
        optsFwd, patchTwo, fsTwo]

theorem hunk_mismatch_records_and_ends_section_witness :
    hunk_loop '+' false (some (str "-foo")) [str "+bar"]
        ⟨none, [], 1, 0, 1, 0, 1, false, []⟩ =
      .done ⟨none, [], 1, 0, 1, 0, 1, false, []⟩ (some (str "-foo")) [str "+bar"] :=
  hunk_mismatch_records_and_ends_section.2.1 '+' false (str "-foo") [str "+bar"]
    ⟨none, [], 1, 0, 1, 0, 1, false, []⟩ (by decide)

set_option maxHeartbeats 4000000 in
/-- C4 counterexample: a dry run over a patch naming the nonexistent target
`d/f` is not filesystem-neutral — the leading directory `d` is still handed to
the directory-creation helper (patch_bbox.c lines 156-163 run before the
dry-run test), so the on-disk state after the run differs from the state
before it. -/
theorem dry_run_creates_directories_cex :
    patch_run optsDry ⟨[], []⟩ patchDir =
      .ok ⟨[], [str "d"]⟩ 1 [.patching (str "d/f"), .hunkFailed 1 1, .hunksFailed 1 1] ∧
    (⟨[], [str "d"]⟩ : FS) ≠ ⟨[], []⟩ := by
  constructor
  · simp [patch_run, run_loop_none, run_loop_some, run_step, scan, extract_filename, cutAt,
          dropDirs_eq, afterSlash, process_section, sec_core, hunk_loop_none, hunk_loop_some,
          hunk_step, parse_swapped, parse_hunk_header, parseForm1, parseForm2, scanNat,
          skipWS, lit, digitsVal, isSpaceC, isDigitC, edit_loop, copy_lines, finalize,
          alookup, aset, aremove, dirOf, hunk_edit, usub, muOpt, str, Opts.plus,
          optsDry, patchDir]
  · decide

set_option maxHeartbeats 4000000 in
/-- C4 (amended): a dry run leaves the regular files of the filesystem
byte-identical — no file is created, renamed, written, or deleted, on every
completion path including fatal aborts — and failure diagnostics are still
emitted (shown on Scenario B: the dry run reports the failed hunk and the
failure summary while leaving the file map unchanged); however, leading
directories for a nonexistent target path are still created even in a dry
run. -/
theorem dry_run_preserves_files :
    (∀ (o : Opts), o.dryRun = true → ∀ cur rest fs ret diags,
        filesOf (run_loop o cur rest fs ret diags) = fs.files) ∧
    patch_run optsDry fsB patchA =
      .ok ⟨[(str "f", [str "qux", str "baz"])], []⟩ 1
        [.patching (str "f"), .hunkFailed 1 1, .hunksFailed 1 1] := by
  constructor
  · intro o ho cur rest fs ret diags
    exact run_loop_dry_aux o ho (rest.length + muOpt cur) cur rest fs ret diags
      (Nat.le_refl _)
  · simp [patch_run, run_loop_none, run_loop_some, run_step, scan, extract_filename, cutAt,
          dropDirs_eq, afterSlash, process_section, sec_core, hunk_loop_none, hunk_loop_some,
          hunk_step, parse_swapped, parse_hunk_header, parseForm1, parseForm2, scanNat,
          skipWS, lit, digitsVal, isSpaceC, isDigitC, edit_loop, copy_lines, finalize,
          alookup, aset, aremove, dirOf, hunk_edit, usub, muOpt, str, Opts.plus,
          optsDry, patchA, fsB]

theorem dry_run_preserves_files_witness :
    filesOf (run_loop optsDry (some (str "--- a/f")) [] fsA 0 []) = fsA.files :=
  dry_run_preserves_files.1 optsDry rfl (some (str "--- a/f")) [] fsA 0 []

set_option maxHeartbeats 4000000 in
/-- C7: applying the Scenario A patch section (strip level 1, forward,
non-dry-run) to an existing file `f` containing the lines `foo`, `baz` yields
`f` with the lines `bar`, `baz`, exit status 0, and no `f.orig` backup left on
disk. -/
theorem scenario_A_run :
    patch_run optsFwd fsA patchA =
        .ok ⟨[(str "f", [str "bar", str "baz"])], []⟩ 0 [.patching (str "f")] ∧
      exitCode (patch_run optsFwd fsA patchA) = 0 ∧
      alookup [(str "f", [str "bar", str "baz"])] (str "f" ++ str ".orig") = none := by
  have h : patch_run optsFwd fsA patchA =
      .ok ⟨[(str "f", [str "bar", str "baz"])], []⟩ 0 [.patching (str "f")] := by
    simp [patch_run, run_loop_none, run_loop_some, run_step, scan, extract_filename, cutAt,
          dropDirs_eq, afterSlash, process_section, sec_core, hunk_loop_none, hunk_loop_some,
          hunk_step, parse_swapped, parse_hunk_header, parseForm1, parseForm2, scanNat,
          skipWS, lit, digitsVal, isSpaceC, isDigitC, edit_loop, copy_lines, finalize,
          alookup, aset, aremove, dirOf, hunk_edit, usub, muOpt, str, Opts.plus,
          optsFwd, patchA, fsA]
  exact ⟨h, by rw [h]; rfl, by decide⟩

set_option maxHeartbeats 4000000 in
/-- C2 counterexample: a clean forward application whose reverse does not
restore the original file.  The single hunk of `patchR` has a destination
start (2) inconsistent with its source start (3); applying it forward (strip
level 1, non-dry) to `f` = `a`,`b`,`x`,`c` applies cleanly (zero failed hunks,
exit 0) and yields `a`,`b`,`c`, but applying the same patch with the reverse
flag to that result yields `a`,`x`,`b`,`c`, which differs from the original
content. -/
theorem forward_reverse_roundtrip_cex :
    patch_run optsFwd fsR patchR =
      .ok ⟨[(str "f", [str "a", str "b", str "c"])], []⟩ 0 [.patching (str "f")] ∧
    patch_run optsRev ⟨[(str "f", [str "a", str "b", str "c"])], []⟩ patchR =
      .ok ⟨[(str "f", [str "a", str "x", str "b", str "c"])], []⟩ 0 [.patching (str "f")] ∧
    [str "a", str "x", str "b", str "c"] ≠ [str "a", str "b", str "x", str "c"] := by
  refine ⟨?_, ?_, by decide⟩
  · simp [patch_run, run_loop_none, run_loop_some, run_step, scan, extract_filename, cutAt,
          dropDirs_eq, afterSlash, process_section, sec_core, hunk_loop_none, hunk_loop_some,
          hunk_step, parse_swapped, parse_hunk_header, parseForm1, parseForm2, scanNat,
          skipWS, lit, digitsVal, isSpaceC, isDigitC, edit_loop, copy_lines, finalize,
          alookup, aset, aremove, dirOf, hunk_edit, usub, muOpt, str, Opts.plus,
          optsFwd, fsR, patchR]
  · simp [patch_run, run_loop_none, run_loop_some, run_step, scan, extract_filename, cutAt,
          dropDirs_eq, afterSlash, process_section, sec_core, hunk_loop_none, hunk_loop_some,
          hunk_step, parse_swapped, parse_hunk_header, parseForm1, parseForm2, scanNat,
          skipWS, lit, digitsVal, isSpaceC, isDigitC, edit_loop, copy_lines, finalize,
          alookup, aset, aremove, dirOf, hunk_edit, usub, muOpt, str, Opts.plus,
          optsRev, patchR]

set_option maxHeartbeats 1000000 in
/-- C2 (amended): the forward/reverse roundtrip holds for well-formed,
position-consistent single-file-section patches.  For a nonempty hunk list in
which every header parses to its stored fields, every body line is a nonempty
'-'/'+'/' ' marker line, every hunk has at least one context line, the
declared counts match the body exactly, consecutive hunk start positions are
offset-consistent with the running cursors, and the source-side payloads match
the file (`hunksOK`): the forward run applies cleanly (exit 0) and produces
the edited file, and running the very same patch with the reverse flag set
(which swaps the source/destination header fields and makes '+' lines the
content to remove) on the result applies cleanly and restores the original
file byte-identically.  Position consistency is essential: without it the
roundtrip fails even though both runs are clean (see the counterexample). -/
theorem forward_then_reverse_restores (n : Line) (F : List Line) (hs : List Hunk)
    (hn : n.all (fun c => !(c == '\t' || c == '\n' || c == '\r')) = true)
    (hne : hs ≠ [])
    (hwf : hunksOK '+' 1 0 F hs = true)
    (hF : F.length ≤ 4294967295)
    (hG : (outOf '+' 1 F hs ++ restAfter '+' 1 F hs).length ≤ 4294967295) :
    patch_run optsFwd0 ⟨[(n, F)], []⟩ (patchOf n hs) =
      .ok ⟨[(n, outOf '+' 1 F hs ++ restAfter '+' 1 F hs)], []⟩ 0 [.patching n] ∧
    patch_run optsRev0 ⟨[(n, outOf '+' 1 F hs ++ restAfter '+' 1 F hs)], []⟩ (patchOf n hs) =
      .ok ⟨[(n, F)], []⟩ 0 [.patching n] := by
  constructor
  · exact patch_run_clean optsFwd0 rfl rfl rfl n F hs hn hne hwf hF
  · have hrev := hunksOK_reverse hs 1 0 F hwf (Nat.le_refl 1)
    have h2 := patch_run_clean optsRev0 rfl rfl rfl n
      (outOf '+' 1 F hs ++ restAfter '+' 1 F hs) hs hn hne hrev hG
    rw [h2]
    have hres := reverse_restores hs 1 0 F hwf (Nat.le_refl 1)
    rw [show outOf optsRev0.plus 1 (outOf '+' 1 F hs ++ restAfter '+' 1 F hs) hs ++
          restAfter optsRev0.plus 1 (outOf '+' 1 F hs ++ restAfter '+' 1 F hs) hs = F
        from hres]

theorem forward_then_reverse_restores_witness :
    patch_run optsFwd0 ⟨[(str "f", [str "foo", str "baz"])], []⟩ (patchOf (str "f") hunksA) =
      .ok ⟨[(str "f", outOf '+' 1 [str "foo", str "baz"] hunksA ++
             restAfter '+' 1 [str "foo", str "baz"] hunksA)], []⟩ 0 [.patching (str "f")] ∧
    patch_run optsRev0 ⟨[(str "f", outOf '+' 1 [str "foo", str "baz"] hunksA ++
             restAfter '+' 1 [str "foo", str "baz"] hunksA)], []⟩ (patchOf (str "f") hunksA) =
      .ok ⟨[(str "f", [str "foo", str "baz"])], []⟩ 0 [.patching (str "f")] :=
  forward_then_reverse_restores (str "f") [str "foo", str "baz"] hunksA (by decide) (by decide)
    (by decide) (by decide) (by decide)

end BBPatch
